import Mathlib

/-!
# Verification development for the scheduler (`src/cron/cron.go`) and the heap
(`src/sort/heap.go`)

Both programs are embedded shallowly; the definitions come first, the theorems follow. The
part of the logging package (`src/log/pool.go`) that the scheduler calls is embedded as well.

* A `time.Time` is an instant on a linear time line, counted in nanoseconds from
  the zero time (January 1, year 1, 00:00:00 UTC), so `IsZero` is "equal to 0".
* `[]*Entry` is a list of entry values; list positions stand for the distinct
  pointers that `Schedule` allocates.
* The two unbuffered channels are modelled by the send effects an operation
  performs; the three branches of the loop's `select` are three step functions, and
  the scheduler with its goroutines is a transition system.
* `sort.Sort` is the standard library's insertion sort driven by `byTime.Less`, which is what
  it runs on slices of at most 12 elements; the theorems use only that its result is a
  permutation in which no later element is `Less` than an earlier one.
* A panic carries an `interface{}` value, which may be `nil`; `recover()` hands the value back
  as it is, as Go does before version 1.21 (the repository has no `go.mod`).
* An `IntSlice` is a list of integers with checked element access.
-/

/-! # The logging calls of `src/log/pool.go` -/

namespace log

/-- The arguments `msg ...interface{}` of a logging call, each one printed. -/
abbrev Msg := List String

/-- The fields of a `Logger` that `LogPool.log` reads; the type is declared outside `src/log`.
`hasLogger` stands for `logger.logger != nil`. -/
structure Logger where
  hasLogger : Bool
  maxLevel : Int
  minLevel : Int

/-- `LogPool`: the named loggers, in the order in which the `range` visits them. -/
structure LogPool where
  Pool : List (String × Logger)

/-- One record written: by `log.Println` of the standard library or by `logAndRotate` of the
named logger. -/
inductive Record where
  | std (msg : Msg)
  | logger (name : String) (msg : Msg)
  deriving DecidableEq

/-- The package variables `Log` and `LogCallstack`, the result of `getCallstack()` and the level
constants `ERROR` and `ALL`: all declared outside `src/log` and taken as parameters. -/
structure Env where
  Log : Option LogPool
  LogCallstack : Bool
  getCallstack : Msg
  ERROR : Int
  ALL : Int

/-- `LogPool.log` (lines 29-41). -/
def LogPool.log (ALL : Int) (lp : LogPool) (level : Int) (msg : Msg) : List Record :=
  if lp.Pool.length < 1 then [Record.std msg]
  else
    lp.Pool.filterMap (fun kv =>
      if kv.2.hasLogger &&
          ((decide (kv.2.maxLevel ≥ level) && decide (kv.2.minLevel ≤ level)) ||
            decide (level = ALL)) then
        some (Record.logger kv.1 msg)
      else none)

/-- `baseLog` (lines 72-77): nothing is written when `Log` is `nil`. -/
def baseLog (env : Env) (level : Int) (pre : String) (msg : Msg) : List Record :=
  match env.Log with
  | none => []
  | some lp => LogPool.log env.ALL lp level (pre :: msg)

/-- `Callstack` (lines 104-109). -/
def Callstack (env : Env) (level : Int) : List Record :=
  if env.LogCallstack then baseLog env level "" env.getCallstack else []

/-- `Error` (lines 93-96): the records it writes. -/
def Error (env : Env) (msg : Msg) : List Record :=
  baseLog env env.ERROR "[ERROR]" msg ++ Callstack env env.ERROR

end log

namespace cron

/-! ## Time -/

/-- A `time.Time` instant in nanoseconds from the zero time. -/
abbrev Time := Int

/-- A `time.Duration` in nanoseconds. -/
abbrev Duration := Int

/-- The constant `time.Hour`. -/
def Hour : Duration := 3600 * 1000000000

/-- Largest `time.Duration` (`1<<63 - 1`). -/
def maxDuration : Duration := 9223372036854775807

/-- Smallest `time.Duration` (`-1 << 63`). -/
def minDuration : Duration := -9223372036854775808

/-- `Time.IsZero`. -/
def Time.IsZero (t : Time) : Bool := t == 0

/-- `Time.Before`. -/
def Time.Before (t u : Time) : Bool := decide (t < u)

/-- `Time.After`. -/
def Time.After (t u : Time) : Bool := decide (t > u)

/-- `Time.Sub`: the duration `t - u`, saturated to the range of `time.Duration`. -/
def Time.Sub (t u : Time) : Duration :=
  if t - u > maxDuration then maxDuration
  else if t - u < minDuration then minDuration
  else t - u

/-! ## Data model -/

/-- Modelled from the spec: the `Schedule` type and its `Next` method are declared outside
`src/cron/cron.go`; the spec gives the contract "`Schedule.next(from: Time) -> Time` (pure,
deterministic; returns a never sentinel to mean no further occurrences)". -/
structure Schedule where
  /-- The next activation time after the given instant; zero means never. -/
  Next : Time → Time

/-- The `interface{}` value handed to `panic`: `none` is `nil`, `some v` a non-nil value that
`%v` prints as `v`. -/
abbrev PanicValue := Option String

/-- The panic state of a goroutine: `none` when it is not panicking, `some v` while it panics
with the value `v`, which may be `nil`. -/
abbrev PanicState := Option PanicValue

/-- `Job`: the interface with the single method `Run()`. An invocation either returns normally
(panic state `none`) or panics with a value. -/
structure Job where
  /-- The panic state in which one call of `Run()` leaves its goroutine. -/
  Run : PanicState

/-- `Entry`. -/
structure Entry where
  Name : String
  Schedule : Schedule
  Next : Time
  Prev : Time
  Job : Job

/-- `byTime.Less` on the two entries at the compared indices. -/
def byTime.Less (si sj : Entry) : Bool :=
  if Time.IsZero si.Next then false
  else if Time.IsZero sj.Next then true
  else Time.Before si.Next sj.Next

/-! ## `sort.Sort(byTime(entries))`

The standard library's insertion sort: element `i` is swapped leftwards while
`Less(j, j-1)` holds. The already sorted left part is kept reversed, its last
element first, so that the inner loop walks down the list. -/

/-- Inner loop `for j := i; j > a && data.Less(j, j-1); j-- { data.Swap(j, j-1) }`, on the
reversed left part. -/
def insertLeft (x : Entry) : List Entry → List Entry
  | [] => [x]
  | p :: ps => if byTime.Less x p then p :: insertLeft x ps else x :: p :: ps

/-- Outer loop `for i := a + 1; i < b; i++`, carrying the reversed sorted left part. -/
def sortLoop : List Entry → List Entry → List Entry
  | acc, [] => acc.reverse
  | acc, x :: xs => sortLoop (insertLeft x acc) xs

/-- `sort.Sort(byTime(entries))`. -/
def sortByTime (entries : List Entry) : List Entry := sortLoop [] entries

/-! ## The scheduler loop `Cron.run` -/

/-- The loop's local state: the entry list it owns and its time reference `now`. -/
structure LoopState where
  entries : List Entry
  now : Time

/-- Lines 156-159: `now := time.Now()` and `entry.Next = entry.Schedule.Next(now)` for every
pre-registered entry. -/
def runStart (entries : List Entry) (now : Time) : LoopState :=
  { entries := entries.map (fun entry => { entry with Next := entry.Schedule.Next now }),
    now := now }

/-- Lines 164-169: the duration handed to `time.NewTimer`, on the sorted list. -/
def timerDuration (entries : List Entry) (now : Time) : Duration :=
  match entries with
  | [] => 100000 * Hour
  | e0 :: _ => if Time.IsZero e0.Next then 100000 * Hour else Time.Sub e0.Next now

/-- Lines 177-180 for one due entry: `e.Prev = e.Next; e.Next = e.Schedule.Next(now)`. -/
def fire (now : Time) (e : Entry) : Entry :=
  { e with Prev := e.Next, Next := e.Schedule.Next now }

/-- Lines 173-181: the scan of the timer branch. The first component is the entry list after the
scan, the second lists the entries handed to `c.Output` and `go c.runWithRecovery`, in dispatch
order and as they were when dispatched. The `break` leaves the rest of the list alone. -/
def scan (now : Time) : List Entry → List Entry × List Entry
  | [] => ([], [])
  | e :: rest =>
    if Time.After e.Next now || Time.IsZero e.Next then (e :: rest, [])
    else ((fire now e) :: (scan now rest).1, e :: (scan now rest).2)

/-- One timer wake cycle: line 162 followed by the timer branch at wake time `T`. -/
def wakeCycle (entries : List Entry) (T : Time) : List Entry × List Entry :=
  scan T (sortByTime entries)

/-- Lines 182-186: the add branch, with `t` the value of `time.Now()` read there. -/
def addBranch (s : LoopState) (newEntry : Entry) (t : Time) : LoopState :=
  { entries := s.entries ++ [{ newEntry with Next := newEntry.Schedule.Next t }],
    now := t }

/-- What the `select` of one iteration receives. -/
inductive Event where
  | timer (T : Time)
  | add (newEntry : Entry) (t : Time)
  | stop

/-- One iteration of the `for` loop (lines 161-192): the state with which the next iteration
starts (`none` after `return`), the timer duration chosen, and the entries dispatched. -/
def iteration (s : LoopState) (ev : Event) : Option LoopState × Duration × List Entry :=
  let sorted := sortByTime s.entries
  let d := timerDuration sorted s.now
  match ev with
  | Event.timer T => (some { entries := (scan T sorted).1, now := T }, d, (scan T sorted).2)
  | Event.add newEntry t => (some (addBranch { entries := sorted, now := s.now } newEntry t), d, [])
  | Event.stop => (none, d, [])

/-! ## `runWithRecovery` -/

/-- The built-in `recover()` called by a deferred function: it returns the value of the panic in
progress and stops the panic; it returns `nil` when there is no panic, and also when the panic
in progress was raised by `panic(nil)`. -/
def recover (p : PanicState) : PanicValue × PanicState :=
  match p with
  | none => (none, none)
  | some v => (v, none)

/-- `Cron.runWithRecovery`; `env` is the state of the logging package and `stack` the text that
`runtime.Stack` writes. The result is the panic state with which the call ends (`none`: it
returns normally) and the records that `log.Error` writes. -/
def runWithRecovery (env : log.Env) (stack : String) (j : Job) :
    PanicState × List log.Record :=
  let afterRun := j.Run
  match recover afterRun with
  | (some r, p) => (p, log.Error env ["cron: panic running job: " ++ r ++ "\n" ++ stack])
  | (none, p) => (p, [])

/-! ## Registration and lifecycle -/

/-- `Cron`: the entry list and the running flag. The channels `add` and `stop` are unbuffered and
appear through the effects below; `output` is the notification hook. -/
structure Cron where
  entries : List Entry
  running : Bool

/-- Channel sends and goroutine launches performed by the lifecycle operations. -/
inductive Effect where
  | sendAdd (entry : Entry)
  | sendStop
  | goRun

/-- `New`. -/
def New : Cron := { entries := [], running := false }

/-- `FuncJob`: the wrapper that turns a `func()` into a `Job`. -/
def FuncJob (f : PanicState) : Job := { Run := f }

/-- `Cron.Schedule`. -/
def Cron.Schedule (c : Cron) (name : String) (schedule : Schedule) (cmd : Job) :
    Cron × List Effect :=
  let entry : Entry := { Name := name, Schedule := schedule, Next := 0, Prev := 0, Job := cmd }
  if !c.running then ({ c with entries := c.entries ++ [entry] }, [])
  else (c, [Effect.sendAdd entry])

/-- `Cron.AddJob`. `Parse` is declared outside `src/cron/cron.go` and is a parameter: it yields a
schedule or a non-nil error. The third component is the returned `error` (`none` for `nil`). -/
def Cron.AddJob (Parse : String → Except String cron.Schedule) (c : Cron) (name cronExpr : String)
    (cmd : Job) : Cron × List Effect × Option String :=
  match Parse cronExpr with
  | Except.error err => (c, [], some err)
  | Except.ok schedule =>
    ((Cron.Schedule c name schedule cmd).1, (Cron.Schedule c name schedule cmd).2, none)

/-- `Cron.AddFunc`. -/
def Cron.AddFunc (Parse : String → Except String cron.Schedule) (c : Cron) (name cronExpr : String)
    (cmd : PanicState) : Cron × List Effect × Option String :=
  Cron.AddJob Parse c name cronExpr (FuncJob cmd)

/-- `Cron.Start`. -/
def Cron.Start (c : Cron) : Cron × List Effect :=
  if c.running then (c, [])
  else ({ c with running := true }, [Effect.goRun])

/-- `Cron.Stop`. -/
def Cron.Stop (c : Cron) : Cron × List Effect :=
  if !c.running then (c, [])
  else ({ c with running := false }, [Effect.sendStop])

/-! ## Concrete schedules, jobs and entries used to instantiate the theorems -/

/-- A schedule that fires at every whole second: the first whole second strictly after `t`. -/
def everySecond : Schedule := { Next := fun t => (t / 1000000000 + 1) * 1000000000 }

/-- A schedule that never fires: `Next` is always the zero time. -/
def neverFires : Schedule := { Next := fun _ => 0 }

/-- A job whose `Run` returns normally. -/
def quietJob : Job := { Run := none }

/-- A job whose `Run` panics, as `DummyJob` of the tests does. -/
def dummyJob : Job := { Run := some (some "YOLO") }

/-- A job whose `Run` is `panic(nil)`. -/
def nilPanicJob : Job := { Run := some none }

/-- A logging package with `Log` set to a pool without loggers and `LogCallstack` off. -/
def plainLog : log.Env :=
  { Log := some { Pool := [] }, LogCallstack := false, getCallstack := [], ERROR := 3, ALL := 0 }

/-- A logging package with `Log` left `nil`. -/
def unsetLog : log.Env :=
  { Log := none, LogCallstack := false, getCallstack := [], ERROR := 3, ALL := 0 }

/-- A logging package with `Log` set to a pool without loggers and `LogCallstack` on. -/
def callstackLog : log.Env :=
  { Log := some { Pool := [] }, LogCallstack := true,
    getCallstack := ["goroutine 1 [running]:"], ERROR := 3, ALL := 0 }

/-- A schedule with a constant delay of 100000 hours. -/
def everyCeiling : Schedule := { Next := fun t => t + 100000 * Hour }

/-- An entry on the constant-delay schedule, as `Cron.Schedule` creates it. -/
def farEntry : Entry :=
  { Name := "far", Schedule := everyCeiling, Next := 0, Prev := 0, Job := quietJob }

/-- An entry on the every-second schedule with the given `Next`. -/
def tick (name : String) (next : Time) : Entry :=
  { Name := name, Schedule := everySecond, Next := next, Prev := 0, Job := quietJob }

/-- An entry on the never-firing schedule, with zero `Next`. -/
def idle (name : String) : Entry :=
  { Name := name, Schedule := neverFires, Next := 0, Prev := 0, Job := quietJob }

/-- Two entries on every-second schedules, both due at the first second. -/
def twoTicks : List Entry := [tick "done" 1000000000, tick "done2" 1000000000]

/-- A parser that accepts only the every-second expression. -/
def parseEverySecond (cronExpr : String) : Except String Schedule :=
  if cronExpr = "* * * * * ?" then Except.ok everySecond
  else Except.error ("cron: cannot parse " ++ cronExpr)

/-! ## Specification-side notions -/

/-- An entry is due at `T` when its `Next` is non-zero and not strictly after `T`. -/
def due (T : Time) (e : Entry) : Bool := !Time.IsZero e.Next && !Time.After e.Next T

/-- The order `sort.Sort` establishes: no later element is `Less` than an earlier one. -/
def SortedByTime (l : List Entry) : Prop := l.Pairwise (fun a b => byTime.Less b a = false)

/-- Two entries denote the same `*Entry` up to its mutable fields: `Next` and `Prev` may differ,
name, schedule and job are equal. -/
def SameEntry (a b : Entry) : Prop :=
  b.Name = a.Name ∧ b.Schedule = a.Schedule ∧ b.Job = a.Job

/-! ## The scheduler as a transition system

The controlling context calls `Start`, `Stop` and `Schedule`; every live `run` goroutine is
blocked in its `select` between two steps. A send on an unbuffered channel and the matching
receive of a loop form one step. Every entry carries a ghost record of its last dispatch, which
no step reads. -/

/-- Ghost record of the last dispatch of an entry: the `Next` it held when it was dispatched and
the wake time of that cycle; `none` while the entry has never been dispatched. -/
abbrev Hist := Option (Time × Time)

/-- `insertLeft` on entries with their ghost record. -/
def insertLeftH (x : Entry × Hist) : List (Entry × Hist) → List (Entry × Hist)
  | [] => [x]
  | p :: ps => if byTime.Less x.1 p.1 then p :: insertLeftH x ps else x :: p :: ps

/-- `sortLoop` on entries with their ghost record. -/
def sortLoopH : List (Entry × Hist) → List (Entry × Hist) → List (Entry × Hist)
  | acc, [] => acc.reverse
  | acc, x :: xs => sortLoopH (insertLeftH x acc) xs

/-- `sort.Sort(byTime(entries))` on entries with their ghost record. -/
def sortByTimeH (entries : List (Entry × Hist)) : List (Entry × Hist) := sortLoopH [] entries

/-- The scan of the timer branch on entries with their ghost record: a dispatched entry records
the `Next` it held and the wake time. -/
def scanH (now : Time) : List (Entry × Hist) → List (Entry × Hist) × List Entry
  | [] => ([], [])
  | e :: rest =>
    if Time.After e.1.Next now || Time.IsZero e.1.Next then (e :: rest, [])
    else ((fire now e.1, some (e.1.Next, now)) :: (scanH now rest).1, e.1 :: (scanH now rest).2)

/-- The scheduler and its goroutines: the fields `entries` and `running` of `Cron`, and the local
variable `now` of every live `run` goroutine. -/
structure Sys where
  entries : List (Entry × Hist)
  running : Bool
  loops : List Time

/-- The `Cron` value of a system state. -/
def Sys.cron (s : Sys) : Cron := { entries := s.entries.map Prod.fst, running := s.running }

/-- The state after `New()`. -/
def Sys.init : Sys := { entries := [], running := false, loops := [] }

/-- `Start`, with the prologue of the launched `run` goroutine (lines 156-159), which reads the
time `t0`. -/
def Sys.Start (s : Sys) (t0 : Time) : Sys :=
  if s.running then s
  else
    { entries := s.entries.map
        (fun eh => ({ eh.1 with Next := eh.1.Schedule.Next t0 }, eh.2)),
      running := true,
      loops := s.loops ++ [t0] }

/-- `Stop`. When running, the send on `c.stop` is received by the live loop `i`, which has sorted
the list at the top of its iteration and returns; without such a loop the send has no receiver. -/
def Sys.Stop (s : Sys) (i : Nat) : Option Sys :=
  if !s.running then some s
  else if i < s.loops.length then
    some { entries := sortByTimeH s.entries, running := false, loops := s.loops.eraseIdx i }
  else none

/-- `Schedule`. When running, the send on `c.add` is received by the live loop `i`, which has
sorted the list at the top of its iteration and reads the time `t` in its add branch. -/
def Sys.Schedule (s : Sys) (name : String) (schedule : Schedule) (cmd : Job) (i : Nat)
    (t : Time) : Option Sys :=
  let entry : Entry := { Name := name, Schedule := schedule, Next := 0, Prev := 0, Job := cmd }
  if !s.running then some { s with entries := s.entries ++ [(entry, none)] }
  else if i < s.loops.length then
    some { entries := sortByTimeH s.entries ++ [({ entry with Next := entry.Schedule.Next t }, none)],
           running := s.running,
           loops := s.loops.set i t }
  else none

/-- The timer of the live loop `i` fires at `T`: the loop has sorted the list at the top of its
iteration and runs the scan. The second component lists the dispatched entries. -/
def Sys.timer (s : Sys) (i : Nat) (T : Time) : Option (Sys × List Entry) :=
  if i < s.loops.length then
    some ({ entries := (scanH T (sortByTimeH s.entries)).1,
            running := s.running,
            loops := s.loops.set i T },
          (scanH T (sortByTimeH s.entries)).2)
  else none

/-- The steps of the system. -/
inductive Action where
  | Start (t0 : Time)
  | Stop (i : Nat)
  | Schedule (name : String) (schedule : Schedule) (cmd : Job) (i : Nat) (t : Time)
  | timer (i : Nat) (T : Time)

/-- One step: the state reached and the entries dispatched by it; `none` when the step cannot
happen in this state. -/
def Sys.step (s : Sys) : Action → Option (Sys × List Entry)
  | Action.Start t0 => some (s.Start t0, [])
  | Action.Stop i => (s.Stop i).map (fun s1 => (s1, []))
  | Action.Schedule name schedule cmd i t =>
    (s.Schedule name schedule cmd i t).map (fun s1 => (s1, []))
  | Action.timer i T => s.timer i T

/-- A run of the system from `s`: the state reached by the steps, in order, and all entries
dispatched on the way. -/
def Sys.exec (s : Sys) : List Action → Option (Sys × List Entry)
  | [] => some (s, [])
  | a :: rest =>
    match s.step a with
    | some (s1, d) => (Sys.exec s1 rest).map (fun r => (r.1, d ++ r.2))
    | none => none

/-- Whether a step is a call of `Start`. -/
def Action.isStart : Action → Bool
  | Action.Start _ => true
  | _ => false

/-- What the ghost record of an entry says about its `Prev`. -/
def HistOk (eh : Entry × Hist) : Prop :=
  match eh.2 with
  | none => eh.1.Prev = 0
  | some (n, T) => eh.1.Prev = n ∧ Time.After n T = false

/-- The live loops match the running flag. -/
def Sys.LoopsMatch (s : Sys) : Prop := s.loops.length = (if s.running then 1 else 0)

/-- Every entry agrees with its ghost record. -/
def Sys.HistInv (s : Sys) : Prop := ∀ eh ∈ s.entries, HistOk eh

/-! ## Further concrete schedules and entries -/

/-- A schedule that answers 2000 before the instant 1000 and the stale instant 500 from then
on. -/
def lagging : Schedule := { Next := fun t => if t < 1000 then 2000 else 500 }

/-- A schedule with a constant delay of 1500. -/
def everyDelay : Schedule := { Next := fun t => t + 1500 }

/-- A schedule that answers the same instant whatever the time. -/
def stuck : Schedule := { Next := fun _ => 1000000000 }

/-- An entry on the stuck schedule, due since the first second. -/
def stuckEntry : Entry :=
  { Name := "stuck", Schedule := stuck, Next := 1000000000, Prev := 0, Job := quietJob }

/-- A session of the controlling context around one wake: start, a registration while running,
a wake at the second second, stop, a registration while stopped, and `Stop`, `Start`, `Stop`. -/
def session : List Action :=
  [Action.Start 500000000,
   Action.Schedule "done" everySecond quietJob 0 700000000,
   Action.timer 0 2000000000,
   Action.Stop 0,
   Action.Schedule "late" everySecond quietJob 0 0,
   Action.Stop 0,
   Action.Start 2500000000,
   Action.Stop 0]

/-- The state in which the session ends. -/
def sessionEnd : Sys :=
  { entries :=
      [({ Name := "done", Schedule := everySecond, Next := 3000000000, Prev := 1000000000,
          Job := quietJob }, some (1000000000, 2000000000)),
       ({ Name := "late", Schedule := everySecond, Next := 3000000000, Prev := 0,
          Job := quietJob }, none)],
    running := false,
    loops := [] }

/-- Two entries as `Cron.Schedule` creates them, on the lagging and the constant-delay
schedule. -/
def laggingPair : List Entry :=
  [{ Name := "lagging", Schedule := lagging, Next := 0, Prev := 0, Job := quietJob },
   { Name := "steady", Schedule := everyDelay, Next := 0, Prev := 0, Job := quietJob }]

end cron

/-! # The binary heap of `src/sort/heap.go`

An `IntSlice` is a list of integers; the functions that work in place return the new contents
of the slice. Every element access is checked: `none` is the run-time panic of an index out of
range. The values are only compared, never computed with, and the indices that the code keeps
non-negative are natural numbers. -/

namespace sort

/-- `IntSlice`. -/
abbrev IntSlice := List Int

/-- `IntSlice.Less`: `p[i] < p[j]`. -/
def IntSlice.Less (p : IntSlice) (i j : Nat) : Option Bool :=
  match p[i]?, p[j]? with
  | some a, some b => some (decide (a < b))
  | _, _ => none

/-- `IntSlice.Swap`: `p[i], p[j] = p[j], p[i]`. -/
def IntSlice.Swap (p : IntSlice) (i j : Nat) : Option IntSlice :=
  match p[i]?, p[j]? with
  | some a, some b => some ((p.set i b).set j a)
  | _, _ => none

/-- The loop of `siftdown`. Every iteration at least halves `pos`, so `pos` iterations are
enough; the first argument counts them down. -/
def siftdownLoop : Nat → IntSlice → Nat → Nat → Option IntSlice
  | 0, heap, _, _ => some heap
  | fuel + 1, heap, startPos, pos =>
    if pos > startPos then
      match IntSlice.Less heap pos ((pos - 1) >>> 1) with
      | none => none
      | some lt =>
        if !lt then some heap
        else
          match IntSlice.Swap heap pos ((pos - 1) >>> 1) with
          | none => none
          | some heap1 => siftdownLoop fuel heap1 startPos ((pos - 1) >>> 1)
    else some heap

/-- `siftdown`. -/
def siftdown (heap : IntSlice) (startPos pos : Nat) : Option IntSlice :=
  siftdownLoop pos heap startPos pos

/-- The loop of `siftup` (lines 22-31): the slice and the position reached. Every iteration
moves `pos` to a larger index below the length, so as many iterations as the slice is long are
enough; the first argument counts them down. -/
def siftupLoop : Nat → IntSlice → Nat → Option (IntSlice × Nat)
  | 0, heap, pos => some (heap, pos)
  | fuel + 1, heap, pos =>
    if pos * 2 + 1 < heap.length then
      match (if pos * 2 + 1 + 1 < heap.length then IntSlice.Less heap (pos * 2 + 1 + 1) (pos * 2 + 1)
             else some false) with
      | none => none
      | some right =>
        match IntSlice.Swap heap pos (if right then pos * 2 + 1 + 1 else pos * 2 + 1) with
        | none => none
        | some heap1 => siftupLoop fuel heap1 (if right then pos * 2 + 1 + 1 else pos * 2 + 1)
    else some (heap, pos)

/-- `siftup`. -/
def siftup (heap : IntSlice) (pos : Nat) : Option IntSlice :=
  match siftupLoop heap.length heap pos with
  | none => none
  | some (heap1, pos1) => siftdown heap1 pos pos1

/-- `Heappush`. -/
def Heappush (heap : IntSlice) (item : Int) : Option IntSlice :=
  siftdown (heap ++ [item]) 0 ((heap ++ [item]).length - 1)

/-- `Heappoppush`: the new contents of the slice and the returned item. -/
def Heappoppush (heap : IntSlice) (item : Int) : Option (IntSlice × Int) :=
  match heap[0]? with
  | none => none
  | some top =>
    match siftup (heap.set 0 item) 0 with
    | none => none
    | some heap1 => some (heap1, top)

/-- `Heappop`. On the empty slice the first index computed is `-1`, out of range. -/
def Heappop (heap : IntSlice) : Option (IntSlice × Int) :=
  if heap.length = 0 then none
  else
    match heap[heap.length - 1]? with
    | none => none
    | some lastItem =>
      if (heap.take (heap.length - 1)).length > 0 then
        Heappoppush (heap.take (heap.length - 1)) lastItem
      else some (heap.take (heap.length - 1), lastItem)

/-- `Heappushpop`: the new contents of the slice and the returned item. The result of
`Heappoppush` is dropped and `item` is returned. -/
def Heappushpop (heap : IntSlice) (item : Int) : Option (IntSlice × Int) :=
  match (if heap.length > 0 then (heap[0]?).map (fun top => decide (top < item))
         else some false) with
  | none => none
  | some true =>
    match Heappoppush heap item with
    | none => none
    | some (heap1, _) => some (heap1, item)
  | some false => some (heap, item)

/-- The loop of `Heapify`: `siftup(heap, i)` for `i = n - 1` down to `0`. -/
def heapifyLoop : Nat → IntSlice → Option IntSlice
  | 0, heap => some heap
  | i + 1, heap =>
    match siftup heap i with
    | none => none
    | some heap1 => heapifyLoop i heap1

/-- `Heapify`: the loop starts at `heap.Len() / 2 - 1`. -/
def Heapify (heap : IntSlice) : Option IntSlice := heapifyLoop (heap.length / 2) heap

/-! ## Specification-side notions for the heap -/

/-- The min-heap property: each element is not smaller than its parent at index `(i-1)/2`. -/
def IsMinHeap (h : IntSlice) : Prop :=
  ∀ i, i < h.length → 0 < i → h.getD ((i - 1) / 2) 0 ≤ h.getD i 0

instance (h : IntSlice) : Decidable (IsMinHeap h) := by
  unfold IsMinHeap
  exact inferInstance

/-- The slice read as a function of the index. -/
def valueAt (h : IntSlice) : Nat → Int := fun k => h.getD k 0

/-- The values after exchanging the positions `i` and `j`. -/
def swapValues (g : Nat → Int) (i j : Nat) : Nat → Int :=
  fun k => if k = j then g i else if k = i then g j else g k

/-- The exchange of the positions `i` and `j` when both are in range. -/
def swapAt (h : IntSlice) (i j : Nat) : IntSlice := (h.set i (h.getD j 0)).set j (h.getD i 0)

/-- The heap property on the first `n` values for every position whose parent is at least
`p`. -/
def HeapFrom (p n : Nat) (g : Nat → Int) : Prop :=
  ∀ j, j < n → 0 < j → p ≤ (j - 1) / 2 → g ((j - 1) / 2) ≤ g j

/-- The state of the loop of `siftdown` at `pos`: the heap property may fail only between `pos`
and its parent, and the children of `pos` are not smaller than the parent of `pos`. -/
def ExceptAt (p pos n : Nat) (g : Nat → Int) : Prop :=
  (∀ j, j < n → 0 < j → p ≤ (j - 1) / 2 → j ≠ pos → g ((j - 1) / 2) ≤ g j) ∧
  (∀ c, c < n → 0 < c → (c - 1) / 2 = pos → p < pos → g ((pos - 1) / 2) ≤ g c)

/-- The state of the first loop of `siftup` at `pos`: the heap property may fail only at `pos`,
towards its parent or its children, and the children of `pos` are not smaller than the parent
of `pos`. -/
def BubbleAt (p pos n : Nat) (g : Nat → Int) : Prop :=
  (∀ j, j < n → 0 < j → p ≤ (j - 1) / 2 → (j - 1) / 2 ≠ pos → j ≠ pos →
    g ((j - 1) / 2) ≤ g j) ∧
  (∀ c, c < n → 0 < c → (c - 1) / 2 = pos → p < pos → g ((pos - 1) / 2) ≤ g c)

/-- The position `c` lies in the subtree of `p`. -/
inductive Below (p : Nat) : Nat → Prop where
  | self : Below p p
  | child {c : Nat} : 0 < c → Below p ((c - 1) / 2) → Below p c

/-- `Heappush` followed by `Heappop`. -/
def pushThenPop (heap : IntSlice) (item : Int) : Option (IntSlice × Int) :=
  match Heappush heap item with
  | none => none
  | some heap1 => Heappop heap1

/-- Repeated `Heappush` of the items, in order, onto `heap`. -/
def pushAll (heap : IntSlice) : List Int → Option IntSlice
  | [] => some heap
  | item :: rest =>
    match Heappush heap item with
    | none => none
    | some heap1 => pushAll heap1 rest

end sort

namespace cron

/-! ## Facts about `byTime.Less` -/

theorem byTime_Less_eq_true (a b : Entry) :
    byTime.Less a b = true ↔ a.Next ≠ 0 ∧ (b.Next = 0 ∨ a.Next < b.Next) := by
  unfold byTime.Less Time.IsZero Time.Before
  by_cases ha : a.Next = 0 <;> by_cases hb : b.Next = 0 <;> simp [ha, hb]

theorem byTime_Less_eq_false (a b : Entry) :
    byTime.Less a b = false ↔ a.Next = 0 ∨ (b.Next ≠ 0 ∧ b.Next ≤ a.Next) := by
  unfold byTime.Less Time.IsZero Time.Before
  by_cases ha : a.Next = 0 <;> by_cases hb : b.Next = 0 <;> simp [ha, hb]

theorem byTime_Less_asymm {a b : Entry} (h : byTime.Less a b = true) :
    byTime.Less b a = false := by
  rw [byTime_Less_eq_true] at h
  rw [byTime_Less_eq_false]
  simp only [Time] at *
  omega

theorem byTime_not_Less_trans {a b c : Entry} (hab : byTime.Less a b = false)
    (hbc : byTime.Less b c = false) : byTime.Less a c = false := by
  rw [byTime_Less_eq_false] at *
  simp only [Time] at *
  omega

theorem due_iff (T : Time) (e : Entry) : due T e = true ↔ e.Next ≠ 0 ∧ e.Next ≤ T := by
  unfold due Time.IsZero Time.After
  by_cases h0 : e.Next = 0 <;> simp [h0]

/-! ## Facts about `sort.Sort` -/

theorem insertLeft_perm (x : Entry) (l : List Entry) : (insertLeft x l).Perm (x :: l) := by
  induction l with
  | nil => exact List.Perm.refl _
  | cons p ps ih =>
    unfold insertLeft
    split
    · exact ((List.Perm.cons p ih).trans (List.Perm.swap x p ps))
    · exact List.Perm.refl _

theorem insertLeft_descending (x : Entry) (l : List Entry)
    (h : l.Pairwise (fun a b => byTime.Less a b = false)) :
    (insertLeft x l).Pairwise (fun a b => byTime.Less a b = false) := by
  induction l with
  | nil => simp [insertLeft]
  | cons p ps ih =>
    rw [List.pairwise_cons] at h
    unfold insertLeft
    split
    · rename_i hlt
      rw [List.pairwise_cons]
      refine ⟨?_, ih h.2⟩
      intro y hy
      rcases (List.mem_cons.mp ((insertLeft_perm x ps).subset hy)) with rfl | hy
      · exact byTime_Less_asymm hlt
      · exact h.1 y hy
    · rename_i hge
      have hge : byTime.Less x p = false := by simpa using hge
      rw [List.pairwise_cons]
      refine ⟨?_, List.pairwise_cons.mpr h⟩
      intro y hy
      rcases List.mem_cons.mp hy with rfl | hy
      · exact hge
      · exact byTime_not_Less_trans hge (h.1 y hy)

theorem sortLoop_perm (acc l : List Entry) : (sortLoop acc l).Perm (acc ++ l) := by
  induction l generalizing acc with
  | nil => simp [sortLoop]
  | cons x xs ih =>
    unfold sortLoop
    refine (ih (insertLeft x acc)).trans ?_
    refine ((insertLeft_perm x acc).append_right xs).trans ?_
    simpa using (@List.perm_middle _ x acc xs).symm

theorem sortLoop_sorted (acc l : List Entry)
    (h : acc.Pairwise (fun a b => byTime.Less a b = false)) : SortedByTime (sortLoop acc l) := by
  induction l generalizing acc with
  | nil =>
    unfold sortLoop SortedByTime
    exact List.pairwise_reverse.mpr h
  | cons x xs ih =>
    unfold sortLoop
    exact ih _ (insertLeft_descending x acc h)

theorem sortByTime_perm (entries : List Entry) : (sortByTime entries).Perm entries := by
  simpa [sortByTime] using sortLoop_perm [] entries

theorem sortByTime_sorted (entries : List Entry) : SortedByTime (sortByTime entries) :=
  sortLoop_sorted [] entries List.Pairwise.nil

/-! ## The scan on a sorted list -/

theorem scan_of_none_due (T : Time) (l : List Entry) (h : ∀ e ∈ l, due T e = false) :
    scan T l = (l, []) := by
  cases l with
  | nil => rfl
  | cons e rest =>
    have he := h e (List.mem_cons_self e rest)
    unfold scan
    have hc : (Time.After e.Next T || Time.IsZero e.Next) = true := by
      unfold due at he
      cases h1 : Time.IsZero e.Next <;> cases h2 : Time.After e.Next T <;> simp_all
    rw [if_pos hc]

theorem not_due_of_sorted_after {T : Time} {e b : Entry} (he : due T e = false)
    (hb : byTime.Less b e = false) : due T b = false := by
  rw [byTime_Less_eq_false] at hb
  rw [Bool.eq_false_iff, Ne, due_iff] at he ⊢
  simp only [Time] at *
  omega

theorem scan_sorted (T : Time) (l : List Entry) (h : SortedByTime l) :
    scan T l = (l.map (fun e => if due T e then fire T e else e), l.filter (due T)) := by
  induction l with
  | nil => rfl
  | cons e rest ih =>
    have hs := List.pairwise_cons.mp h
    cases hd : due T e with
    | false =>
      have hall : ∀ b ∈ e :: rest, due T b = false := by
        intro b hb
        rcases List.mem_cons.mp hb with rfl | hb
        · exact hd
        · exact not_due_of_sorted_after hd (hs.1 b hb)
      rw [scan_of_none_due T (e :: rest) hall]
      have hmap : (e :: rest).map (fun e => if due T e then fire T e else e) = e :: rest := by
        conv_rhs => rw [← List.map_id (e :: rest)]
        apply List.map_congr_left
        intro b hb
        simp [hall b hb]
      have hfil : (e :: rest).filter (due T) = [] := by
        rw [List.filter_eq_nil_iff]
        intro b hb
        simp [hall b hb]
      rw [hmap, hfil]
    | true =>
      have hc : (Time.After e.Next T || Time.IsZero e.Next) = false := by
        unfold due at hd
        cases h1 : Time.IsZero e.Next <;> cases h2 : Time.After e.Next T <;> simp_all
      unfold scan
      rw [hc, ih hs.2]
      simp [hd]

/-! ## Claims about the wake cycle -/

/-- C1: one timer wake cycle (sort with byTime, then scan at `T`) dispatches exactly the entries
that are due at `T`, that is whose `Next` is non-zero and not strictly after `T`; every dispatched
entry ends with `Prev` equal to its old `Next` and `Next` equal to `Schedule.Next(T)`; every other
entry is left as it was; and the sorted list holds the same entries as the list before. -/
theorem C1_wake_cycle_dispatches_exactly_due (entries : List Entry) (T : Time) :
    (wakeCycle entries T).2 = (sortByTime entries).filter (due T) ∧
    (wakeCycle entries T).1 = (sortByTime entries).map (fun e =>
      if due T e then { e with Prev := e.Next, Next := e.Schedule.Next T } else e) ∧
    (sortByTime entries).Perm entries ∧
    (∀ e : Entry, due T e = true ↔ (Time.IsZero e.Next = false ∧ Time.After e.Next T = false)) := by
  refine ⟨?_, ?_, sortByTime_perm entries, ?_⟩
  · unfold wakeCycle
    rw [scan_sorted T _ (sortByTime_sorted entries)]
  · unfold wakeCycle
    rw [scan_sorted T _ (sortByTime_sorted entries)]
    rfl
  · intro e
    unfold due
    cases Time.IsZero e.Next <;> cases Time.After e.Next T <;> simp

/-- C2: after sorting with byTime the list is a permutation of the input, no entry with a zero
`Next` stands before an entry with a non-zero `Next`, and the non-zero `Next` values are in
non-decreasing order. -/
theorem C2_sort_zero_last_nondecreasing (entries : List Entry) :
    (sortByTime entries).Perm entries ∧
    (sortByTime entries).Pairwise (fun a b =>
      ¬ (Time.IsZero a.Next = true ∧ Time.IsZero b.Next = false)) ∧
    (sortByTime entries).Pairwise (fun a b =>
      Time.IsZero a.Next = false → Time.IsZero b.Next = false → a.Next ≤ b.Next) := by
  refine ⟨sortByTime_perm entries, ?_, ?_⟩
  · refine List.Pairwise.imp ?_ (sortByTime_sorted entries)
    intro a b hab
    rw [byTime_Less_eq_false] at hab
    simp only [Time.IsZero, beq_iff_eq, beq_eq_false_iff_ne]
    simp only [Time] at *
    omega
  · refine List.Pairwise.imp ?_ (sortByTime_sorted entries)
    intro a b hab
    rw [byTime_Less_eq_false] at hab
    simp only [Time.IsZero, beq_eq_false_iff_ne]
    simp only [Time] at *
    omega

/-! ## The sleep duration -/

theorem timerDuration_all_zero (entries : List Entry) (now : Time)
    (h : ∀ e ∈ entries, Time.IsZero e.Next = true) :
    timerDuration (sortByTime entries) now = 100000 * Hour := by
  have hp := sortByTime_perm entries
  cases hs : sortByTime entries with
  | nil => rfl
  | cons e0 rest =>
    have h0 : Time.IsZero e0.Next = true :=
      h e0 (hp.subset (by rw [hs]; exact List.mem_cons_self e0 rest))
    simp [timerDuration, h0]

theorem timerDuration_of_min (entries : List Entry) (now : Time) (m : Entry) (hm : m ∈ entries)
    (hnz : Time.IsZero m.Next = false)
    (hmin : ∀ e ∈ entries, Time.IsZero e.Next = false → m.Next ≤ e.Next) :
    timerDuration (sortByTime entries) now = Time.Sub m.Next now := by
  have hp := sortByTime_perm entries
  have hsorted := sortByTime_sorted entries
  cases hs : sortByTime entries with
  | nil =>
    rw [hs] at hp
    rw [hp.symm.eq_nil] at hm
    exact absurd hm (List.not_mem_nil m)
  | cons e0 rest =>
    rw [hs] at hp hsorted
    have hsc := List.pairwise_cons.mp hsorted
    have hm2 : m ∈ e0 :: rest := hp.symm.subset hm
    have he0 : e0 ∈ entries := hp.subset (List.mem_cons_self e0 rest)
    have hle : byTime.Less m e0 = false := by
      rcases List.mem_cons.mp hm2 with rfl | hmr
      · rw [byTime_Less_eq_false]
        by_cases hz : m.Next = 0
        · exact Or.inl hz
        · exact Or.inr ⟨hz, le_refl _⟩
      · exact hsc.1 m hmr
    rw [byTime_Less_eq_false] at hle
    have hnz2 : m.Next ≠ 0 := by simpa [Time.IsZero] using hnz
    have h0nz : Time.IsZero e0.Next = false := by
      simp only [Time.IsZero, beq_eq_false_iff_ne]
      simp only [Time] at *
      omega
    have hge := hmin e0 he0 h0nz
    have heq : e0.Next = m.Next := by
      simp only [Time] at *
      omega
    simp [timerDuration, heq, hnz]

theorem exists_min_nonzero (entries : List Entry)
    (h : ¬ ∀ e ∈ entries, Time.IsZero e.Next = true) :
    ∃ m ∈ entries, Time.IsZero m.Next = false ∧
      ∀ e ∈ entries, Time.IsZero e.Next = false → m.Next ≤ e.Next := by
  have hp := sortByTime_perm entries
  have hsorted := sortByTime_sorted entries
  cases hs : sortByTime entries with
  | nil =>
    rw [hs] at hp
    rw [hp.symm.eq_nil] at h
    exact absurd (fun e he => absurd he (List.not_mem_nil e)) h
  | cons e0 rest =>
    rw [hs] at hp hsorted
    have hsc := List.pairwise_cons.mp hsorted
    have hall : ∀ b ∈ entries, byTime.Less b e0 = false := by
      intro b hb
      rcases List.mem_cons.mp (hp.symm.subset hb) with rfl | hbr
      · rw [byTime_Less_eq_false]
        by_cases hz : b.Next = 0
        · exact Or.inl hz
        · exact Or.inr ⟨hz, le_refl _⟩
      · exact hsc.1 b hbr
    have h0nz : Time.IsZero e0.Next = false := by
      cases hz : Time.IsZero e0.Next with
      | false => rfl
      | true =>
        exfalso
        apply h
        intro b hb
        have := hall b hb
        rw [byTime_Less_eq_false] at this
        simp only [Time.IsZero, beq_iff_eq] at hz ⊢
        simp only [Time] at *
        omega
    refine ⟨e0, hp.subset (List.mem_cons_self e0 rest), h0nz, ?_⟩
    intro b hb hbnz
    have := hall b hb
    rw [byTime_Less_eq_false] at this
    simp only [Time.IsZero, beq_eq_false_iff_ne] at hbnz h0nz
    simp only [Time] at *
    omega

/-- C3 (as stated, refuted): a loop started at `now = 63900000000000000000` with one entry on a
schedule whose next activation lies exactly 100000 hours ahead chooses a duration equal to the
100000-hour ceiling although the list is not empty and the entry has a non-zero `Next`. -/
theorem C3_ceiling_iff_all_zero_fails :
    ¬ (timerDuration (sortByTime (runStart [farEntry] 63900000000000000000).entries)
          63900000000000000000 = 100000 * Hour ↔
        ((runStart [farEntry] 63900000000000000000).entries = [] ∨
          ∀ e ∈ (runStart [farEntry] 63900000000000000000).entries,
            Time.IsZero e.Next = true)) := by
  intro h
  have hd : timerDuration (sortByTime (runStart [farEntry] 63900000000000000000).entries)
      63900000000000000000 = 100000 * Hour := by
    decide
  rcases h.mp hd with hnil | hall
  · exact absurd hnil (List.cons_ne_nil _ _)
  · have := hall _ (List.mem_singleton.mpr rfl)
    revert this
    decide

/-- C3 (amended): if the list is empty or every entry has a zero `Next`, the duration chosen after
sorting is the ceiling of 100000 hours; otherwise there is an entry with the smallest non-zero
`Next` among all entries and the duration is that `Next` minus `now` (`Time.Sub`); hence the
duration has the ceiling value exactly when all `Next` are zero or that difference is itself
100000 hours; and entries with a zero `Next` never change the chosen duration. -/
theorem C3_sleep_duration (entries : List Entry) (now : Time) :
    ((entries = [] ∨ ∀ e ∈ entries, Time.IsZero e.Next = true) →
      timerDuration (sortByTime entries) now = 100000 * Hour) ∧
    (¬ (entries = [] ∨ ∀ e ∈ entries, Time.IsZero e.Next = true) →
      ∃ m ∈ entries, Time.IsZero m.Next = false ∧
        (∀ e ∈ entries, Time.IsZero e.Next = false → m.Next ≤ e.Next) ∧
        timerDuration (sortByTime entries) now = Time.Sub m.Next now) ∧
    (timerDuration (sortByTime entries) now = 100000 * Hour ↔
      ((entries = [] ∨ ∀ e ∈ entries, Time.IsZero e.Next = true) ∨
        ∃ m ∈ entries, Time.IsZero m.Next = false ∧
          (∀ e ∈ entries, Time.IsZero e.Next = false → m.Next ≤ e.Next) ∧
          Time.Sub m.Next now = 100000 * Hour)) ∧
    timerDuration (sortByTime entries) now =
      timerDuration (sortByTime (entries.filter (fun e => !Time.IsZero e.Next))) now := by
  have hA : (entries = [] ∨ ∀ e ∈ entries, Time.IsZero e.Next = true) →
      timerDuration (sortByTime entries) now = 100000 * Hour := by
    intro h
    apply timerDuration_all_zero
    rcases h with rfl | h
    · intro e he
      exact absurd he (List.not_mem_nil e)
    · exact h
  have hB : ¬ (entries = [] ∨ ∀ e ∈ entries, Time.IsZero e.Next = true) →
      ∃ m ∈ entries, Time.IsZero m.Next = false ∧
        (∀ e ∈ entries, Time.IsZero e.Next = false → m.Next ≤ e.Next) ∧
        timerDuration (sortByTime entries) now = Time.Sub m.Next now := by
    intro h
    obtain ⟨m, hm, hnz, hmin⟩ := exists_min_nonzero entries (fun hall => h (Or.inr hall))
    exact ⟨m, hm, hnz, hmin, timerDuration_of_min entries now m hm hnz hmin⟩
  refine ⟨hA, hB, ?_, ?_⟩
  · constructor
    · intro hd
      by_cases hz : entries = [] ∨ ∀ e ∈ entries, Time.IsZero e.Next = true
      · exact Or.inl hz
      · obtain ⟨m, hm, hnz, hmin, heq⟩ := hB hz
        exact Or.inr ⟨m, hm, hnz, hmin, by rw [← heq, hd]⟩
    · rintro (hz | ⟨m, hm, hnz, hmin, heq⟩)
      · exact hA hz
      · rw [timerDuration_of_min entries now m hm hnz hmin, heq]
  · by_cases hz : ∀ e ∈ entries, Time.IsZero e.Next = true
    · have hf : entries.filter (fun e => !Time.IsZero e.Next) = [] := by
        rw [List.filter_eq_nil_iff]
        intro e he
        simp [hz e he]
      rw [hf, timerDuration_all_zero entries now hz]
      rfl
    · obtain ⟨m, hm, hnz, hmin⟩ := exists_min_nonzero entries hz
      rw [timerDuration_of_min entries now m hm hnz hmin]
      symm
      apply timerDuration_of_min _ now m
      · exact List.mem_filter.mpr ⟨hm, by simp [hnz]⟩
      · exact hnz
      · intro e he henz
        exact hmin e (List.mem_filter.mp he).1 henz

/-! ## No double dispatch -/

theorem due_false_of_zero_or_after {T : Time} {e : Entry}
    (h : Time.IsZero e.Next = true ∨ Time.After e.Next T = true) : due T e = false := by
  unfold due
  rcases h with h | h <;> simp [h]

theorem zero_or_after_of_not_due {T : Time} {e : Entry} (h : due T e = false) :
    Time.IsZero e.Next = true ∨ Time.After e.Next T = true := by
  unfold due at h
  cases h1 : Time.IsZero e.Next <;> cases h2 : Time.After e.Next T <;> simp_all

theorem wakeCycle_next_zero_or_after (entries : List Entry) (T : Time)
    (hs : ∀ e ∈ entries, ∀ t : Time,
      Time.IsZero (e.Schedule.Next t) = true ∨ Time.After (e.Schedule.Next t) t = true) :
    ∀ e ∈ (wakeCycle entries T).1, Time.IsZero e.Next = true ∨ Time.After e.Next T = true := by
  intro e he
  unfold wakeCycle at he
  rw [scan_sorted T _ (sortByTime_sorted entries)] at he
  obtain ⟨a, ha, rfl⟩ := List.mem_map.mp he
  by_cases hd : due T a = true
  · rw [if_pos hd]
    exact hs a ((sortByTime_perm entries).subset ha) T
  · rw [if_neg hd]
    exact zero_or_after_of_not_due (by simpa using hd)

/-- C4: if every schedule returns from `Next(t)` the zero time or a time strictly after `t`, then
after one timer wake cycle at `T` every entry has a `Next` that is zero or strictly after `T`;
the dispatched entries are a sub-multiset of the entry list, so no entry is dispatched twice in
the cycle; and a second scan at the same `T`, with or without sorting again, dispatches nothing
and leaves the list as it is. -/
theorem C4_no_double_dispatch (entries : List Entry) (T : Time)
    (hs : ∀ e ∈ entries, ∀ t : Time,
      Time.IsZero (e.Schedule.Next t) = true ∨ Time.After (e.Schedule.Next t) t = true) :
    (∀ e ∈ (wakeCycle entries T).1, Time.IsZero e.Next = true ∨ Time.After e.Next T = true) ∧
    (wakeCycle entries T).2.Subperm entries ∧
    scan T (wakeCycle entries T).1 = ((wakeCycle entries T).1, []) ∧
    wakeCycle (wakeCycle entries T).1 T = (sortByTime (wakeCycle entries T).1, []) := by
  have h1 := wakeCycle_next_zero_or_after entries T hs
  refine ⟨h1, ?_, ?_, ?_⟩
  · unfold wakeCycle
    rw [scan_sorted T _ (sortByTime_sorted entries)]
    exact (List.filter_sublist _).subperm.trans (sortByTime_perm entries).subperm
  · exact scan_of_none_due T _ (fun e he => due_false_of_zero_or_after (h1 e he))
  · show scan T (sortByTime (wakeCycle entries T).1) = _
    apply scan_of_none_due
    intro e he
    exact due_false_of_zero_or_after (h1 e ((sortByTime_perm _).subset he))

/-- C4 at two every-second entries that are both due at the first second. -/
theorem C4_no_double_dispatch_witness :
    (∀ e ∈ twoTicks, ∀ t : Time,
      Time.IsZero (e.Schedule.Next t) = true ∨ Time.After (e.Schedule.Next t) t = true) ∧
    ((∀ e ∈ (wakeCycle twoTicks 1000000000).1,
        Time.IsZero e.Next = true ∨ Time.After e.Next 1000000000 = true) ∧
      (wakeCycle twoTicks 1000000000).2.Subperm twoTicks ∧
      scan 1000000000 (wakeCycle twoTicks 1000000000).1 =
        ((wakeCycle twoTicks 1000000000).1, []) ∧
      wakeCycle (wakeCycle twoTicks 1000000000).1 1000000000 =
        (sortByTime (wakeCycle twoTicks 1000000000).1, [])) := by
  have hs : ∀ e ∈ twoTicks, ∀ t : Time,
      Time.IsZero (e.Schedule.Next t) = true ∨ Time.After (e.Schedule.Next t) t = true := by
    intro e he t
    right
    have hsch : e.Schedule = everySecond := by
      simp only [twoTicks, List.mem_cons, List.mem_singleton, List.not_mem_nil, or_false] at he
      rcases he with rfl | rfl <;> rfl
    rw [hsch]
    simp only [everySecond, Time.After, decide_eq_true_eq]
    simp only [Time] at *
    omega
  exact ⟨hs, C4_no_double_dispatch twoTicks 1000000000 hs⟩

/-! ## Panic recovery -/

/-- C5 (as stated, refuted): a job whose `Run` is `panic(nil)` panics, yet `recover()` returns
`nil` and no diagnostic is emitted, where the same call with the panic value "YOLO" emits one;
and with "YOLO" nothing is emitted when `Log` is `nil`, and two records when `LogCallstack` is
on. -/
theorem C5_nil_panic_emits_no_diagnostic :
    nilPanicJob.Run ≠ none ∧
    (runWithRecovery plainLog "stack" nilPanicJob).2.length ≠ 1 ∧
    runWithRecovery plainLog "stack" nilPanicJob = (none, []) ∧
    (runWithRecovery plainLog "stack" dummyJob).2.length = 1 ∧
    (runWithRecovery unsetLog "stack" dummyJob).2.length ≠ 1 ∧
    (runWithRecovery callstackLog "stack" dummyJob).2.length ≠ 1 := by
  refine ⟨by decide, by decide, by decide, by decide, by decide, by decide⟩

/-- C5 (amended): `runWithRecovery` returns normally for every job, whatever value `Run` panics
with: no panic propagates. When `Run` panics with a non-nil value, the deferred function
recovers it and calls `log.Error` exactly once, with the text built from that value and the
stack; with `Log` a pool without loggers and `LogCallstack` off that call writes exactly one
record. When `Run` returns normally `log.Error` is not called and nothing is written. -/
theorem C5_runWithRecovery_contains_panic (env : log.Env) (stack : String) (j : Job)
    (r : String) (cs : log.Msg) (levelError levelAll : Int) :
    (runWithRecovery env stack j).1 = none ∧
    runWithRecovery env stack { Run := some (some r) } =
      (none, log.Error env ["cron: panic running job: " ++ r ++ "\n" ++ stack]) ∧
    runWithRecovery
        { Log := some { Pool := [] }, LogCallstack := false, getCallstack := cs,
          ERROR := levelError, ALL := levelAll }
        stack { Run := some (some r) } =
      (none, [log.Record.std ["[ERROR]", "cron: panic running job: " ++ r ++ "\n" ++ stack]]) ∧
    runWithRecovery env stack { Run := none } = (none, []) := by
  refine ⟨?_, rfl, rfl, rfl⟩
  unfold runWithRecovery recover
  rcases j.Run with _ | _ | _ <;> rfl

/-! ## Registration and lifecycle -/

/-- C6: when `Parse` rejects the spec string, `AddJob` and `AddFunc` return that error, perform no
channel send and leave the scheduler as it was: same entry list, same length, same running
flag. -/
theorem C6_AddJob_parse_error (Parse : String → Except String Schedule) (c : Cron)
    (name cronExpr : String) (cmd : Job) (f : PanicState) (err : String)
    (h : Parse cronExpr = Except.error err) :
    Cron.AddJob Parse c name cronExpr cmd = (c, [], some err) ∧
    Cron.AddFunc Parse c name cronExpr f = (c, [], some err) ∧
    (Cron.AddJob Parse c name cronExpr cmd).1.entries.length = c.entries.length ∧
    (Cron.AddJob Parse c name cronExpr cmd).1.running = c.running := by
  have h1 : Cron.AddJob Parse c name cronExpr cmd = (c, [], some err) := by
    unfold Cron.AddJob
    rw [h]
  have h2 : Cron.AddFunc Parse c name cronExpr f = (c, [], some err) := by
    unfold Cron.AddFunc Cron.AddJob
    rw [h]
  exact ⟨h1, h2, by rw [h1], by rw [h1]⟩

/-- C6 at the call of `TestInvalidJobSpec`, on a fresh scheduler. -/
theorem C6_AddJob_parse_error_witness :
    parseEverySecond "this will not parse" =
      Except.error "cron: cannot parse this will not parse" ∧
    (Cron.AddJob parseEverySecond New "wrong" "this will not parse" quietJob =
        (New, [], some "cron: cannot parse this will not parse") ∧
      Cron.AddFunc parseEverySecond New "wrong" "this will not parse" none =
        (New, [], some "cron: cannot parse this will not parse") ∧
      (Cron.AddJob parseEverySecond New "wrong" "this will not parse"
        quietJob).1.entries.length = New.entries.length ∧
      (Cron.AddJob parseEverySecond New "wrong" "this will not parse" quietJob).1.running =
        New.running) :=
  ⟨by rfl,
    C6_AddJob_parse_error parseEverySecond New "wrong" "this will not parse" quietJob none
      "cron: cannot parse this will not parse" (by rfl)⟩

/-! ## The loop's add branch and start -/

/-- C7: when the loop accepts `newEntry` at time `t`, the iteration ends in the state whose list
is the (sorted) existing entries, each as it was, followed by `newEntry` with `Next` set to
`Schedule.Next(t)`, whatever the loop's earlier time reference was; nothing is dispatched; the
time reference becomes `t`; and the next iteration computes its sleep duration from `t` over the
sorted list that includes the new entry. -/
theorem C7_add_branch (s : LoopState) (newEntry : Entry) (t : Time) (ev : Event) :
    (iteration s (Event.add newEntry t)).1 =
      some { entries := sortByTime s.entries ++
               [{ newEntry with Next := newEntry.Schedule.Next t }],
             now := t } ∧
    (iteration s (Event.add newEntry t)).2.2 = [] ∧
    (sortByTime s.entries).Perm s.entries ∧
    (addBranch s newEntry t).entries =
      s.entries ++ [{ newEntry with Next := newEntry.Schedule.Next t }] ∧
    (addBranch s newEntry t).now = t ∧
    (iteration (addBranch s newEntry t) ev).2.1 =
      timerDuration
        (sortByTime (s.entries ++ [{ newEntry with Next := newEntry.Schedule.Next t }])) t := by
  refine ⟨rfl, rfl, sortByTime_perm s.entries, rfl, rfl, ?_⟩
  cases ev <;> rfl

/-- C8: when the loop starts at `t0`, every pre-registered entry gets `Next` equal to its
`Schedule.Next(t0)` and keeps its place, `Prev`, name, schedule and job; the first sleep is
computed on that list from `t0`; and an entry registered by `Schedule` before `Start` ends with
the same fields as the entry that `Schedule` sends while running and the loop accepts at `t0`. -/
theorem C8_start_computes_next (entries : List Entry) (t0 : Time) (ev : Event)
    (name : String) (schedule : Schedule) (cmd : Job) (s : LoopState) :
    (runStart entries t0).entries =
      entries.map (fun e => { e with Next := e.Schedule.Next t0 }) ∧
    (runStart entries t0).now = t0 ∧
    (runStart entries t0).entries.length = entries.length ∧
    (runStart entries t0).entries.map Entry.Next =
      entries.map (fun e => e.Schedule.Next t0) ∧
    (runStart entries t0).entries.map Entry.Prev = entries.map Entry.Prev ∧
    (iteration (runStart entries t0) ev).2.1 =
      timerDuration
        (sortByTime (entries.map (fun e => { e with Next := e.Schedule.Next t0 }))) t0 ∧
    (runStart (Cron.Schedule { entries := entries, running := false } name schedule cmd).1.entries
        t0).entries =
      (runStart entries t0).entries ++
        [{ Name := name, Schedule := schedule, Next := schedule.Next t0, Prev := 0,
           Job := cmd }] ∧
    (Cron.Schedule { entries := entries, running := true } name schedule cmd).2 =
      [Effect.sendAdd
        { Name := name, Schedule := schedule, Next := 0, Prev := 0, Job := cmd }] ∧
    (addBranch s { Name := name, Schedule := schedule, Next := 0, Prev := 0, Job := cmd }
        t0).entries =
      s.entries ++
        [{ Name := name, Schedule := schedule, Next := schedule.Next t0, Prev := 0,
           Job := cmd }] := by
  refine ⟨rfl, rfl, ?_, ?_, ?_, ?_, ?_, rfl, rfl⟩
  · simp [runStart]
  · simp [runStart, Function.comp_def]
  · simp [runStart, Function.comp_def]
  · cases ev <;> rfl
  · simp [runStart, Cron.Schedule]

/-- C9: on a scheduler that is not running, `Schedule` appends exactly one entry with the given
name, schedule and job and zero `Next` and `Prev` to the end of the entry list, keeps the running
flag and sends nothing; `AddJob` with a spec that parses does the same and returns `nil`. -/
theorem C9_Schedule_not_running (Parse : String → Except String Schedule) (c : Cron)
    (name cronExpr : String) (schedule : Schedule) (cmd : Job)
    (hr : c.running = false) (hp : Parse cronExpr = Except.ok schedule) :
    Cron.Schedule c name schedule cmd =
      ({ entries := c.entries ++
           [{ Name := name, Schedule := schedule, Next := 0, Prev := 0, Job := cmd }],
         running := false }, []) ∧
    Cron.AddJob Parse c name cronExpr cmd =
      ({ entries := c.entries ++
           [{ Name := name, Schedule := schedule, Next := 0, Prev := 0, Job := cmd }],
         running := false }, [], none) ∧
    (Cron.Schedule c name schedule cmd).1.entries.length = c.entries.length + 1 ∧
    (Cron.Schedule c name schedule cmd).1.entries.take c.entries.length = c.entries ∧
    (Cron.Schedule c name schedule cmd).1.running = c.running := by
  have h1 : Cron.Schedule c name schedule cmd =
      ({ entries := c.entries ++
           [{ Name := name, Schedule := schedule, Next := 0, Prev := 0, Job := cmd }],
         running := false }, []) := by
    cases c with
    | mk entries running =>
      simp only at hr
      subst hr
      rfl
  refine ⟨h1, ?_, ?_, ?_, ?_⟩
  · unfold Cron.AddJob
    rw [hp]
    simp only [h1]
  · rw [h1]
    simp
  · rw [h1]
    simp
  · rw [h1, hr]

/-- C9 at the first registration of `TestAddBeforeRunning`, on a fresh scheduler. -/
theorem C9_Schedule_not_running_witness :
    New.running = false ∧
    parseEverySecond "* * * * * ?" = Except.ok everySecond ∧
    (Cron.Schedule New "add before running" everySecond quietJob =
        ({ entries := New.entries ++
             [{ Name := "add before running", Schedule := everySecond, Next := 0, Prev := 0,
                Job := quietJob }],
           running := false }, []) ∧
      Cron.AddJob parseEverySecond New "add before running" "* * * * * ?" quietJob =
        ({ entries := New.entries ++
             [{ Name := "add before running", Schedule := everySecond, Next := 0, Prev := 0,
                Job := quietJob }],
           running := false }, [], none) ∧
      (Cron.Schedule New "add before running" everySecond quietJob).1.entries.length =
        New.entries.length + 1 ∧
      (Cron.Schedule New "add before running" everySecond quietJob).1.entries.take
        New.entries.length = New.entries ∧
      (Cron.Schedule New "add before running" everySecond quietJob).1.running = New.running) :=
  ⟨rfl, by rfl,
    C9_Schedule_not_running parseEverySecond New "add before running" "* * * * * ?" everySecond
      quietJob rfl (by rfl)⟩

/-- C10: on a scheduler that is not running, `Stop` returns at once: it performs no send on the
stop channel, so it cannot block, and leaves the whole scheduler state as it was. -/
theorem C10_Stop_not_running (c : Cron) (hr : c.running = false) :
    Cron.Stop c = (c, []) := by
  unfold Cron.Stop
  simp [hr]

/-- C10 at `TestStopWithoutStart`: `Stop` on a fresh scheduler. -/
theorem C10_Stop_not_running_witness :
    New.running = false ∧ Cron.Stop New = (New, []) :=
  ⟨rfl, C10_Stop_not_running New rfl⟩

/-! ## `Start` twice -/

theorem Cron_Start_of_running (c : Cron) (h : c.running = true) : Cron.Start c = (c, []) := by
  unfold Cron.Start
  rw [if_pos h]

theorem Sys_Start_of_running (s : Sys) (t : Time) (h : s.running = true) : s.Start t = s := by
  unfold Sys.Start
  rw [if_pos h]

/-- C11: `Start` followed by `Start` yields the state of a single `Start` and launches what a
single `Start` launches, the second call never launching a loop: on a running scheduler `Start`
changes nothing and launches no loop; on a scheduler that is not running it sets `running`,
keeps the entry list and launches exactly one loop. With the launched loops counted, a state
whose live loops match its running flag has exactly one live loop after the two calls. -/
theorem C11_Start_idempotent (c : Cron) (s : Sys) (t0 t1 : Time) :
    (Cron.Start (Cron.Start c).1).1 = (Cron.Start c).1 ∧
    (Cron.Start (Cron.Start c).1).2 = [] ∧
    Cron.Start { entries := c.entries, running := true } =
      ({ entries := c.entries, running := true }, []) ∧
    Cron.Start { entries := c.entries, running := false } =
      ({ entries := c.entries, running := true }, [Effect.goRun]) ∧
    (Cron.Start c).1.entries = c.entries ∧
    (Cron.Start c).1.running = true ∧
    (s.Start t0).Start t1 = s.Start t0 ∧
    (s.Start t0).cron = (Cron.Start { entries := (s.Start t0).cron.entries,
                                      running := s.running }).1 ∧
    ((s.Start t0).Start t1).loops.length = s.loops.length + (if s.running then 0 else 1) ∧
    (s.loops.length = (if s.running then 1 else 0) →
      ((s.Start t0).Start t1).loops.length = 1) := by
  have hc : (Cron.Start c).1.running = true := by
    unfold Cron.Start
    cases h : c.running <;> simp [h]
  have hs : (s.Start t0).running = true := by
    unfold Sys.Start
    cases h : s.running <;> simp [h]
  have hss : (s.Start t0).Start t1 = s.Start t0 := Sys_Start_of_running _ t1 hs
  have hl : (s.Start t0).loops.length = s.loops.length + (if s.running then 0 else 1) := by
    unfold Sys.Start
    cases h : s.running <;> simp [h]
  refine ⟨?_, ?_, rfl, rfl, ?_, hc, hss, ?_, ?_, ?_⟩
  · rw [Cron_Start_of_running _ hc]
  · rw [Cron_Start_of_running _ hc]
  · unfold Cron.Start
    cases h : c.running <;> simp [h]
  · unfold Sys.cron Cron.Start
    rw [hs]
    cases h : s.running <;> simp [h]
  · rw [hss, hl]
  · intro hinv
    rw [hss, hl, hinv]
    cases h : s.running <;> simp [h]

/-! ## Order of dispatch -/

/-- C12: the entries dispatched in one timer wake cycle, taken as they were before the cycle,
appear in non-decreasing order of `Next`, so of two due entries with different `Next` the one
with the smaller `Next` is dispatched first; and the dispatched entries are exactly the due
entries of the list, so entries due at the same instant are all dispatched in the cycle. -/
theorem C12_dispatch_in_ascending_next (entries : List Entry) (T : Time) :
    (wakeCycle entries T).2.Pairwise (fun a b => a.Next ≤ b.Next) ∧
    (wakeCycle entries T).2.Pairwise (fun a b => ¬ b.Next < a.Next) ∧
    (wakeCycle entries T).2.Perm (entries.filter (due T)) := by
  have hd : (wakeCycle entries T).2 = (sortByTime entries).filter (due T) := by
    unfold wakeCycle
    rw [scan_sorted T _ (sortByTime_sorted entries)]
  have hpw : (wakeCycle entries T).2.Pairwise (fun a b => a.Next ≤ b.Next) := by
    rw [hd]
    refine List.Pairwise.imp_of_mem ?_ (List.Pairwise.filter (due T) (sortByTime_sorted entries))
    intro a b ha hb hab
    have hda := (due_iff T a).mp (List.mem_filter.mp ha).2
    have hdb := (due_iff T b).mp (List.mem_filter.mp hb).2
    rw [byTime_Less_eq_false] at hab
    simp only [Time] at *
    omega
  refine ⟨hpw, ?_, ?_⟩
  · refine List.Pairwise.imp ?_ hpw
    intro a b hab
    simp only [Time] at *
    omega
  · rw [hd]
    exact (sortByTime_perm entries).filter (due T)

/-! ## Membership of the entry list -/

theorem forall₂_sameEntry_map (l : List Entry) (f : Entry → Entry)
    (hf : ∀ e ∈ l, SameEntry e (f e)) : List.Forall₂ SameEntry l (l.map f) := by
  rw [List.forall₂_map_right_iff, List.forall₂_same]
  exact hf

/-- C16: sorting leaves a permutation of the list; a timer wake cycle leaves the sorted list with
every entry the same up to `Next` and `Prev`, so with the same length; `Start` and `Stop` do not
touch the list, the prologue of the launched loop keeps every entry up to `Next`, and the stop
branch ends the loop without a dispatch; `Schedule` on a running scheduler leaves the list alone
and only sends the new entry, and the add branch appends exactly that one entry. -/
theorem C16_membership_changes_only_by_registration (entries : List Entry) (T t : Time)
    (c : Cron) (s : LoopState) (name : String) (schedule : Schedule) (cmd : Job)
    (newEntry : Entry) :
    (sortByTime entries).Perm entries ∧
    List.Forall₂ SameEntry (sortByTime entries) (wakeCycle entries T).1 ∧
    (wakeCycle entries T).1.length = entries.length ∧
    (Cron.Start c).1.entries = c.entries ∧
    (Cron.Stop c).1.entries = c.entries ∧
    List.Forall₂ SameEntry entries (runStart entries t).entries ∧
    ((iteration s Event.stop).1 = none ∧ (iteration s Event.stop).2.2 = []) ∧
    Cron.Schedule { entries := entries, running := true } name schedule cmd =
      ({ entries := entries, running := true },
       [Effect.sendAdd { Name := name, Schedule := schedule, Next := 0, Prev := 0,
                         Job := cmd }]) ∧
    (addBranch s newEntry t).entries =
      s.entries ++ [{ newEntry with Next := newEntry.Schedule.Next t }] ∧
    (addBranch s newEntry t).entries.length = s.entries.length + 1 ∧
    (iteration s (Event.add newEntry t)).1.map (fun s1 => s1.entries) =
      some (sortByTime s.entries ++ [{ newEntry with Next := newEntry.Schedule.Next t }]) := by
  have hw : (wakeCycle entries T).1 =
      (sortByTime entries).map (fun e => if due T e then fire T e else e) := by
    unfold wakeCycle
    rw [scan_sorted T _ (sortByTime_sorted entries)]
  refine ⟨sortByTime_perm entries, ?_, ?_, ?_, ?_, ?_, ⟨rfl, rfl⟩, rfl, rfl, ?_, rfl⟩
  · rw [hw]
    apply forall₂_sameEntry_map
    intro e _
    by_cases hd : due T e = true
    · rw [if_pos hd]
      exact ⟨rfl, rfl, rfl⟩
    · rw [if_neg hd]
      exact ⟨rfl, rfl, rfl⟩
  · rw [hw, List.length_map]
    exact (sortByTime_perm entries).length_eq
  · unfold Cron.Start
    cases h : c.running <;> simp [h]
  · unfold Cron.Stop
    cases h : c.running <;> simp [h]
  · exact forall₂_sameEntry_map entries _ (fun e _ => ⟨rfl, rfl, rfl⟩)
  · simp [addBranch]

/-! ## A schedule that answers with a past time -/

theorem Time_Sub_nonpos {t u : Time} (h : t ≤ u) : Time.Sub t u ≤ 0 := by
  unfold Time.Sub maxDuration minDuration
  simp only [Time, Duration] at *
  split
  · omega
  · split <;> omega

/-- C18 (as stated, refuted): after a start at the instant 0 the entry on the lagging schedule
has `Next` = 2000; at the wake time 1500, caused by the other entry, its schedule answers the
non-zero past instant 500, yet the entry is not dispatched in that cycle. -/
theorem C18_stale_schedule_not_dispatched_unless_due :
    ¬ (∀ e ∈ (runStart laggingPair 0).entries,
        Time.IsZero (e.Schedule.Next 1500) = false →
        Time.After (e.Schedule.Next 1500) 1500 = false →
        e ∈ (wakeCycle (runStart laggingPair 0).entries 1500).2) := by
  intro h
  have hm := h { Name := "lagging", Schedule := lagging, Next := 2000, Prev := 0,
                 Job := quietJob }
    (List.mem_cons_self _ _) (by decide) (by decide)
  have hn := List.mem_map_of_mem Entry.Name hm
  revert hn
  decide

/-- C18 (amended): an entry that is due at the wake time `T` and whose schedule returns for `T` a
non-zero time that is not after `T` is dispatched in the timer wake cycle at `T`, is still due
after that cycle, makes the next computed sleep duration zero or negative, and is dispatched
again in the following timer wake cycle, at any wake time `T2` not before `T`. -/
theorem C18_stale_schedule_refires (entries : List Entry) (T T2 : Time) (e : Entry)
    (he : e ∈ entries) (hdue : due T e = true)
    (hnz : Time.IsZero (e.Schedule.Next T) = false)
    (hpast : Time.After (e.Schedule.Next T) T = false) (hT : T ≤ T2) :
    e ∈ (wakeCycle entries T).2 ∧
    fire T e ∈ (wakeCycle entries T).1 ∧
    due T (fire T e) = true ∧
    timerDuration (sortByTime (wakeCycle entries T).1) T ≤ 0 ∧
    fire T e ∈ (wakeCycle (wakeCycle entries T).1 T2).2 := by
  have hes : e ∈ sortByTime entries := (sortByTime_perm entries).symm.subset he
  have hw : wakeCycle entries T =
      ((sortByTime entries).map (fun e => if due T e then fire T e else e),
       (sortByTime entries).filter (due T)) := by
    unfold wakeCycle
    rw [scan_sorted T _ (sortByTime_sorted entries)]
  have hfnext : (fire T e).Next = e.Schedule.Next T := rfl
  have hnz2 : e.Schedule.Next T ≠ 0 := by simpa [Time.IsZero] using hnz
  have hpast2 : e.Schedule.Next T ≤ T := by simpa [Time.After] using hpast
  have hfm : fire T e ∈ (wakeCycle entries T).1 := by
    rw [hw]
    refine List.mem_map.mpr ⟨e, hes, ?_⟩
    simp only [hdue, if_true]
  have hfd : ∀ T3 : Time, T ≤ T3 → due T3 (fire T e) = true := by
    intro T3 h3
    rw [due_iff, hfnext]
    refine ⟨hnz2, ?_⟩
    simp only [Time] at *
    omega
  refine ⟨?_, hfm, hfd T (le_refl T), ?_, ?_⟩
  · rw [hw]
    exact List.mem_filter.mpr ⟨hes, hdue⟩
  · have hnall : ¬ ∀ x ∈ (wakeCycle entries T).1, Time.IsZero x.Next = true := by
      intro hall
      have := hall _ hfm
      rw [hfnext] at this
      rw [this] at hnz
      exact Bool.noConfusion hnz
    obtain ⟨m, hm, _, hmin⟩ := exists_min_nonzero _ hnall
    rw [timerDuration_of_min _ T m hm (by assumption) hmin]
    apply Time_Sub_nonpos
    have := hmin _ hfm (by rw [hfnext]; exact hnz)
    rw [hfnext] at this
    simp only [Time] at *
    omega
  · unfold wakeCycle
    rw [scan_sorted T2 _ (sortByTime_sorted _)]
    exact List.mem_filter.mpr ⟨(sortByTime_perm _).symm.subset hfm, hfd T2 hT⟩

/-- C18 at an entry on a schedule that answers the first second whatever the time, woken at
2500000000 and again at 2600000000. -/
theorem C18_stale_schedule_refires_witness :
    (stuckEntry ∈ [stuckEntry] ∧ due 2500000000 stuckEntry = true ∧
      Time.IsZero (stuckEntry.Schedule.Next 2500000000) = false ∧
      Time.After (stuckEntry.Schedule.Next 2500000000) 2500000000 = false ∧
      (2500000000 : Time) ≤ 2600000000) ∧
    (stuckEntry ∈ (wakeCycle [stuckEntry] 2500000000).2 ∧
      fire 2500000000 stuckEntry ∈ (wakeCycle [stuckEntry] 2500000000).1 ∧
      due 2500000000 (fire 2500000000 stuckEntry) = true ∧
      timerDuration (sortByTime (wakeCycle [stuckEntry] 2500000000).1) 2500000000 ≤ 0 ∧
      fire 2500000000 stuckEntry ∈
        (wakeCycle (wakeCycle [stuckEntry] 2500000000).1 2600000000).2) :=
  ⟨⟨List.mem_cons_self _ _, by decide, by decide, by decide, by decide⟩,
    C18_stale_schedule_refires [stuckEntry] 2500000000 2600000000 stuckEntry
      (List.mem_cons_self _ _) (by decide) (by decide) (by decide) (by decide)⟩

/-! ## The ghost records do not change what the code does -/

theorem insertLeftH_fst (x : Entry × Hist) (l : List (Entry × Hist)) :
    (insertLeftH x l).map Prod.fst = insertLeft x.1 (l.map Prod.fst) := by
  induction l with
  | nil => rfl
  | cons p ps ih =>
    simp only [insertLeftH, insertLeft, List.map_cons]
    split
    · simp [ih]
    · simp

theorem sortLoopH_fst (acc l : List (Entry × Hist)) :
    (sortLoopH acc l).map Prod.fst = sortLoop (acc.map Prod.fst) (l.map Prod.fst) := by
  induction l generalizing acc with
  | nil => simp [sortLoopH, sortLoop]
  | cons x xs ih =>
    simp only [sortLoopH, sortLoop, List.map_cons]
    rw [ih, insertLeftH_fst]

theorem sortByTimeH_fst (l : List (Entry × Hist)) :
    (sortByTimeH l).map Prod.fst = sortByTime (l.map Prod.fst) := by
  simpa [sortByTimeH, sortByTime] using sortLoopH_fst [] l

theorem scanH_fst (T : Time) (l : List (Entry × Hist)) :
    ((scanH T l).1.map Prod.fst, (scanH T l).2) = scan T (l.map Prod.fst) := by
  induction l with
  | nil => rfl
  | cons e rest ih =>
    simp only [scanH, scan, List.map_cons]
    split
    · simp
    · rw [← ih]
      simp

theorem insertLeftH_perm (x : Entry × Hist) (l : List (Entry × Hist)) :
    (insertLeftH x l).Perm (x :: l) := by
  induction l with
  | nil => exact List.Perm.refl _
  | cons p ps ih =>
    unfold insertLeftH
    split
    · exact ((List.Perm.cons p ih).trans (List.Perm.swap x p ps))
    · exact List.Perm.refl _

theorem sortLoopH_perm (acc l : List (Entry × Hist)) : (sortLoopH acc l).Perm (acc ++ l) := by
  induction l generalizing acc with
  | nil => simp [sortLoopH]
  | cons x xs ih =>
    unfold sortLoopH
    refine (ih (insertLeftH x acc)).trans ?_
    refine ((insertLeftH_perm x acc).append_right xs).trans ?_
    simpa using (@List.perm_middle _ x acc xs).symm

theorem sortByTimeH_perm (l : List (Entry × Hist)) : (sortByTimeH l).Perm l := by
  simpa [sortByTimeH] using sortLoopH_perm [] l

theorem scanH_histOk (T : Time) (l : List (Entry × Hist)) (h : ∀ eh ∈ l, HistOk eh) :
    ∀ eh ∈ (scanH T l).1, HistOk eh := by
  induction l with
  | nil =>
    intro eh heh
    exact absurd heh (List.not_mem_nil eh)
  | cons e rest ih =>
    intro eh heh
    unfold scanH at heh
    split at heh
    · exact h eh heh
    · rename_i hc
      rcases List.mem_cons.mp heh with rfl | hr
      · refine ⟨rfl, ?_⟩
        cases h1 : Time.After e.1.Next T with
        | false => rfl
        | true => simp [h1] at hc
      · exact ih (fun x hx => h x (List.mem_cons_of_mem e hx)) eh hr

/-! ## Invariants of the transition system -/

theorem Sys.exec_invariant (P : Sys → Prop)
    (hstep : ∀ (s : Sys) (a : Action) (s1 : Sys) (d : List Entry),
      P s → s.step a = some (s1, d) → P s1) :
    ∀ (acts : List Action) (s s1 : Sys) (d : List Entry),
      P s → Sys.exec s acts = some (s1, d) → P s1 := by
  intro acts
  induction acts with
  | nil =>
    intro s s1 d hP h
    simp only [Sys.exec, Option.some.injEq, Prod.mk.injEq] at h
    rw [← h.1]
    exact hP
  | cons a rest ih =>
    intro s s1 d hP h
    unfold Sys.exec at h
    cases hst : s.step a with
    | none => simp [hst] at h
    | some r =>
      obtain ⟨s2, d2⟩ := r
      simp only [hst] at h
      cases hex : Sys.exec s2 rest with
      | none => simp [hex] at h
      | some r2 =>
        obtain ⟨s3, d3⟩ := r2
        simp only [hex, Option.map_some', Option.some.injEq, Prod.mk.injEq] at h
        rw [← h.1]
        exact ih s2 s3 d3 (hstep s a s2 d2 hP hst) hex

theorem Sys.step_loopsMatch (s : Sys) (a : Action) (s1 : Sys) (d : List Entry)
    (hP : s.LoopsMatch) (h : s.step a = some (s1, d)) : s1.LoopsMatch := by
  unfold Sys.LoopsMatch at *
  cases a with
  | Start t0 =>
    simp only [Sys.step, Option.some.injEq, Prod.mk.injEq] at h
    rw [← h.1]
    unfold Sys.Start
    cases hr : s.running <;> simp [hr] at hP ⊢
    · exact hP
    · exact hP
  | Stop i =>
    simp only [Sys.step, Sys.Stop] at h
    cases hr : s.running
    · simp [hr] at h hP
      rw [← h.1]
      simp [hr, hP]
    · simp [hr] at h hP
      obtain ⟨hi, hs1, _⟩ := h
      rw [← hs1]
      show (s.loops.eraseIdx i).length = 0
      rw [List.length_eraseIdx, if_pos hi, hP]
  | Schedule name schedule cmd i t =>
    simp only [Sys.step, Sys.Schedule] at h
    cases hr : s.running
    · simp [hr] at h hP
      rw [← h.1]
      simp [hr, hP]
    · simp [hr] at h hP
      obtain ⟨hi, hs1, _⟩ := h
      rw [← hs1]
      simp [hr, hP]
  | timer i T =>
    simp only [Sys.step, Sys.timer] at h
    split at h
    · simp only [Option.some.injEq, Prod.mk.injEq] at h
      rw [← h.1]
      simpa using hP
    · exact absurd h (by simp)

theorem Sys.init_loopsMatch : Sys.init.LoopsMatch := rfl

theorem Sys.reachable_loopsMatch (acts : List Action) (s : Sys) (d : List Entry)
    (h : Sys.exec Sys.init acts = some (s, d)) : s.LoopsMatch :=
  Sys.exec_invariant Sys.LoopsMatch Sys.step_loopsMatch acts Sys.init s d Sys.init_loopsMatch h

theorem Sys.stopped_step (s : Sys) (hr : s.running = false) (hl : s.loops = []) (a : Action)
    (ha : a.isStart = false) (s1 : Sys) (d : List Entry) (h : s.step a = some (s1, d)) :
    d = [] ∧ s1.running = false ∧ s1.loops = [] ∧ s.entries <+: s1.entries := by
  cases a with
  | Start t0 => simp [Action.isStart] at ha
  | Stop i =>
    simp [Sys.step, Sys.Stop, hr] at h
    obtain ⟨h1, h2⟩ := h
    subst h1
    exact ⟨h2, hr, hl, List.prefix_refl _⟩
  | Schedule name schedule cmd i t =>
    simp [Sys.step, Sys.Schedule, hr] at h
    obtain ⟨h1, h2⟩ := h
    subst h1
    exact ⟨h2, rfl, hl, List.prefix_append _ _⟩
  | timer i T =>
    simp [Sys.step, Sys.timer, hl] at h

theorem Sys.stopped_exec (acts : List Action) :
    ∀ (s : Sys), s.running = false → s.loops = [] → (∀ a ∈ acts, a.isStart = false) →
      ∀ (s1 : Sys) (d : List Entry), Sys.exec s acts = some (s1, d) →
        d = [] ∧ s1.running = false ∧ s1.loops = [] ∧ s.entries <+: s1.entries := by
  induction acts with
  | nil =>
    intro s hr hl _ s1 d h
    simp only [Sys.exec, Option.some.injEq, Prod.mk.injEq] at h
    obtain ⟨h1, h2⟩ := h
    subst h1
    exact ⟨h2.symm, hr, hl, List.prefix_refl _⟩
  | cons a rest ih =>
    intro s hr hl hns s1 d h
    unfold Sys.exec at h
    cases hst : s.step a with
    | none => simp [hst] at h
    | some r =>
      obtain ⟨s2, d2⟩ := r
      simp only [hst] at h
      cases hex : Sys.exec s2 rest with
      | none => simp [hex] at h
      | some r2 =>
        obtain ⟨s3, d3⟩ := r2
        simp only [hex, Option.map_some', Option.some.injEq, Prod.mk.injEq] at h
        obtain ⟨h1, h2⟩ := h
        subst h1
        have hs := Sys.stopped_step s hr hl a (hns a (List.mem_cons_self a rest)) s2 d2 hst
        have hr2 := ih s2 hs.2.1 hs.2.2.1
          (fun b hb => hns b (List.mem_cons_of_mem a hb)) s3 d3 hex
        refine ⟨?_, hr2.2.1, hr2.2.2.1, hs.2.2.2.trans hr2.2.2.2⟩
        rw [← h2, hs.1, hr2.1]
        rfl

/-- C13: in every state reached from `New()` by steps of the system, the number of live loops is
1 when `running` is true and 0 when it is false. The calls of the controlling context can always
complete. While the scheduler is stopped no timer step exists, and any run of steps without a
`Start` dispatches nothing, keeps the scheduler stopped and without a loop, and keeps the entries
it had, each as it was, at the front of the list, so that an entry registered then is not fired.
`Stop`, `Start`, `Stop` ends with no live loop. -/
theorem C13_live_loops_match_running (acts : List Action) (s : Sys) (d : List Entry)
    (h : Sys.exec Sys.init acts = some (s, d)) :
    s.loops.length = (if s.running then 1 else 0) ∧
    ((∀ t0 : Time, (s.step (Action.Start t0)).isSome = true) ∧
      (s.step (Action.Stop 0)).isSome = true ∧
      (∀ (name : String) (schedule : Schedule) (cmd : Job) (t : Time),
        (s.step (Action.Schedule name schedule cmd 0 t)).isSome = true)) ∧
    (s.running = false → ∀ (i : Nat) (T : Time), s.step (Action.timer i T) = none) ∧
    (s.running = false → ∀ (acts2 : List Action) (s2 : Sys) (d2 : List Entry),
      (∀ a ∈ acts2, a.isStart = false) → Sys.exec s acts2 = some (s2, d2) →
        d2 = [] ∧ s2.running = false ∧ s2.loops = [] ∧ s.entries <+: s2.entries) ∧
    (∀ t0 : Time, ∃ s3 : Sys,
      Sys.exec s [Action.Stop 0, Action.Start t0, Action.Stop 0] = some (s3, []) ∧
      s3.loops = [] ∧ s3.running = false) := by
  have hinv : s.loops.length = (if s.running then 1 else 0) :=
    Sys.reachable_loopsMatch acts s d h
  have hnil : s.running = false → s.loops = [] := by
    intro hr
    rw [hr] at hinv
    exact List.length_eq_zero.mp (by simpa using hinv)
  refine ⟨hinv, ⟨?_, ?_, ?_⟩, ?_, ?_, ?_⟩
  · intro t0
    rfl
  · cases hr : s.running
    · simp [Sys.step, Sys.Stop, hr]
    · rw [hr] at hinv
      simp [Sys.step, Sys.Stop, hr, hinv]
  · intro name schedule cmd t
    cases hr : s.running
    · simp [Sys.step, Sys.Schedule, hr]
    · rw [hr] at hinv
      simp [Sys.step, Sys.Schedule, hr, hinv]
  · intro hr i T
    simp [Sys.step, Sys.timer, hnil hr]
  · intro hr acts2 s2 d2 hns hex
    exact Sys.stopped_exec acts2 s hr (hnil hr) hns s2 d2 hex
  · intro t0
    cases hr : s.running
    · have hl := hnil hr
      refine ⟨{ entries := sortByTimeH (s.entries.map
                  (fun eh => ({ eh.1 with Next := eh.1.Schedule.Next t0 }, eh.2))),
                running := false, loops := [] }, ?_, rfl, rfl⟩
      simp [Sys.exec, Sys.step, Sys.Stop, Sys.Start, hr, hl]
    · rw [hr] at hinv
      obtain ⟨t1, hl⟩ := List.length_eq_one.mp (by simpa using hinv)
      refine ⟨{ entries := sortByTimeH ((sortByTimeH s.entries).map
                  (fun eh => ({ eh.1 with Next := eh.1.Schedule.Next t0 }, eh.2))),
                running := false, loops := [] }, ?_, rfl, rfl⟩
      simp [Sys.exec, Sys.step, Sys.Stop, Sys.Start, hr, hl]

/-- C13 at the session of start, registration, wake, stop, registration, `Stop`, `Start`,
`Stop`. -/
theorem C13_live_loops_match_running_witness :
    Sys.exec Sys.init session = some (sessionEnd, [tick "done" 1000000000]) ∧
    (sessionEnd.loops.length = (if sessionEnd.running then 1 else 0) ∧
      ((∀ t0 : Time, (sessionEnd.step (Action.Start t0)).isSome = true) ∧
        (sessionEnd.step (Action.Stop 0)).isSome = true ∧
        (∀ (name : String) (schedule : Schedule) (cmd : Job) (t : Time),
          (sessionEnd.step (Action.Schedule name schedule cmd 0 t)).isSome = true)) ∧
      (sessionEnd.running = false →
        ∀ (i : Nat) (T : Time), sessionEnd.step (Action.timer i T) = none) ∧
      (sessionEnd.running = false → ∀ (acts2 : List Action) (s2 : Sys) (d2 : List Entry),
        (∀ a ∈ acts2, a.isStart = false) → Sys.exec sessionEnd acts2 = some (s2, d2) →
          d2 = [] ∧ s2.running = false ∧ s2.loops = [] ∧ sessionEnd.entries <+: s2.entries) ∧
      (∀ t0 : Time, ∃ s3 : Sys,
        Sys.exec sessionEnd [Action.Stop 0, Action.Start t0, Action.Stop 0] = some (s3, []) ∧
        s3.loops = [] ∧ s3.running = false)) :=
  ⟨rfl, C13_live_loops_match_running session sessionEnd [tick "done" 1000000000] rfl⟩

/-! ## `Prev` and the last dispatch -/

theorem HistOk_of_same_prev {a b : Entry × Hist} (hp : b.1.Prev = a.1.Prev) (hh : b.2 = a.2)
    (h : HistOk a) : HistOk b := by
  unfold HistOk at *
  rw [hh, hp]
  exact h

theorem Sys.step_histInv (s : Sys) (a : Action) (s1 : Sys) (d : List Entry)
    (hP : s.HistInv) (h : s.step a = some (s1, d)) : s1.HistInv := by
  unfold Sys.HistInv at *
  have hfresh : ∀ (e : Entry), e.Prev = 0 → HistOk (e, none) := fun e he => he
  cases a with
  | Start t0 =>
    simp only [Sys.step, Option.some.injEq, Prod.mk.injEq] at h
    rw [← h.1]
    unfold Sys.Start
    split
    · exact hP
    · intro eh heh
      obtain ⟨x, hx, rfl⟩ := List.mem_map.mp heh
      exact HistOk_of_same_prev rfl rfl (hP x hx)
  | Stop i =>
    simp only [Sys.step, Sys.Stop] at h
    cases hr : s.running
    · simp [hr] at h
      rw [← h.1]
      exact hP
    · simp [hr] at h
      obtain ⟨_, hs1, _⟩ := h
      rw [← hs1]
      intro eh heh
      exact hP eh ((sortByTimeH_perm s.entries).subset heh)
  | Schedule name schedule cmd i t =>
    simp only [Sys.step, Sys.Schedule] at h
    cases hr : s.running
    · simp [hr] at h
      rw [← h.1]
      intro eh heh
      rcases List.mem_append.mp heh with hm | hm
      · exact hP eh hm
      · rw [List.mem_singleton.mp hm]
        exact hfresh _ rfl
    · simp [hr] at h
      obtain ⟨_, hs1, _⟩ := h
      rw [← hs1]
      intro eh heh
      rcases List.mem_append.mp heh with hm | hm
      · exact hP eh ((sortByTimeH_perm s.entries).subset hm)
      · rw [List.mem_singleton.mp hm]
        exact hfresh _ rfl
  | timer i T =>
    simp only [Sys.step, Sys.timer] at h
    split at h
    · simp only [Option.some.injEq, Prod.mk.injEq] at h
      rw [← h.1]
      exact scanH_histOk T _ (fun eh heh => hP eh ((sortByTimeH_perm s.entries).subset heh))
    · exact absurd h (by simp)

/-- C17: in every state reached from `New()` by steps of the system, an entry that has never been
dispatched has a zero `Prev`, and an entry that has been dispatched has `Prev` equal to the `Next`
it held when it was last dispatched, which is not after the wake time of that cycle. The record
of the last dispatch is a ghost: without it the sort and the scan are those of the code. -/
theorem C17_prev_is_next_of_last_dispatch (acts : List Action) (s : Sys) (d : List Entry)
    (h : Sys.exec Sys.init acts = some (s, d)) :
    (∀ e : Entry, (e, none) ∈ s.entries → e.Prev = 0) ∧
    (∀ (e : Entry) (n T : Time), (e, some (n, T)) ∈ s.entries →
      e.Prev = n ∧ Time.After n T = false) ∧
    (∀ (T : Time) (l : List (Entry × Hist)),
      ((scanH T l).1.map Prod.fst, (scanH T l).2) = scan T (l.map Prod.fst)) ∧
    (∀ l : List (Entry × Hist), (sortByTimeH l).map Prod.fst = sortByTime (l.map Prod.fst)) := by
  have hinv : s.HistInv :=
    Sys.exec_invariant Sys.HistInv Sys.step_histInv acts Sys.init s d
      (fun eh heh => absurd heh (List.not_mem_nil eh)) h
  refine ⟨?_, ?_, scanH_fst, sortByTimeH_fst⟩
  · intro e he
    exact hinv (e, none) he
  · intro e n T he
    exact hinv (e, some (n, T)) he

/-- C17 at the session of start, registration, wake, stop, registration, `Stop`, `Start`,
`Stop`. -/
theorem C17_prev_is_next_of_last_dispatch_witness :
    Sys.exec Sys.init session = some (sessionEnd, [tick "done" 1000000000]) ∧
    ((∀ e : Entry, (e, none) ∈ sessionEnd.entries → e.Prev = 0) ∧
      (∀ (e : Entry) (n T : Time), (e, some (n, T)) ∈ sessionEnd.entries →
        e.Prev = n ∧ Time.After n T = false) ∧
      (∀ (T : Time) (l : List (Entry × Hist)),
        ((scanH T l).1.map Prod.fst, (scanH T l).2) = scan T (l.map Prod.fst)) ∧
      (∀ l : List (Entry × Hist),
        (sortByTimeH l).map Prod.fst = sortByTime (l.map Prod.fst))) :=
  ⟨rfl, C17_prev_is_next_of_last_dispatch session sessionEnd [tick "done" 1000000000] rfl⟩

/-! ## `byTime.Less` as an order -/

/-- C21: `byTime.Less` is a strict weak ordering on entries: it is irreflexive, also for a zero
`Next`; asymmetric; transitive; being incomparable (neither entry `Less` than the other) is
transitive and holds exactly when the two `Next` values are equal or both zero; and two entries
with a zero `Next` are never ordered before one another. -/
theorem C21_byTime_Less_strict_weak_order (a b c : Entry) :
    byTime.Less a a = false ∧
    (byTime.Less a b = true → byTime.Less b a = false) ∧
    (byTime.Less a b = true → byTime.Less b c = true → byTime.Less a c = true) ∧
    ((byTime.Less a b = false ∧ byTime.Less b a = false) →
      (byTime.Less b c = false ∧ byTime.Less c b = false) →
      (byTime.Less a c = false ∧ byTime.Less c a = false)) ∧
    ((byTime.Less a b = false ∧ byTime.Less b a = false) ↔
      (a.Next = b.Next ∨ (Time.IsZero a.Next = true ∧ Time.IsZero b.Next = true))) ∧
    (Time.IsZero a.Next = true → Time.IsZero b.Next = true →
      byTime.Less a b = false ∧ byTime.Less b a = false) := by
  simp only [byTime_Less_eq_true, byTime_Less_eq_false, Time.IsZero, beq_iff_eq]
  simp only [Time] at *
  refine ⟨?_, ?_, ?_, ?_, ?_, ?_⟩
  · omega
  · omega
  · omega
  · omega
  · constructor <;> omega
  · omega

end cron

namespace sort

/-! ## Exchanging two positions -/

theorem getD_swapAt (h : IntSlice) (i j : Nat) (hi : i < h.length) (hj : j < h.length)
    (k : Nat) : (swapAt h i j).getD k 0 = swapValues (valueAt h) i j k := by
  unfold swapAt swapValues valueAt
  simp only [List.getD_eq_getElem?_getD, List.getElem?_set, List.length_set]
  by_cases hkj : k = j
  · subst hkj
    simp [hj]
  · by_cases hki : k = i
    · subst hki
      simp [hi, Ne.symm hkj, hkj]
    · simp [Ne.symm hkj, hkj, Ne.symm hki, hki]

theorem valueAt_swapAt (h : IntSlice) (i j : Nat) (hi : i < h.length) (hj : j < h.length) :
    valueAt (swapAt h i j) = swapValues (valueAt h) i j := by
  funext k
  exact getD_swapAt h i j hi hj k

theorem length_swapAt (h : IntSlice) (i j : Nat) : (swapAt h i j).length = h.length := by
  simp [swapAt]

theorem getElem_cons_set_perm (x : Int) :
    ∀ (l : List Int) (j : Nat), j < l.length → (l.getD j 0 :: l.set j x).Perm (x :: l)
  | [], j, hj => absurd hj (Nat.not_lt_zero j)
  | y :: ys, 0, _ => by
    simp only [List.getD_cons_zero, List.set_cons_zero]
    exact List.Perm.swap x y ys
  | y :: ys, j + 1, hj => by
    simp only [List.getD_cons_succ, List.set_cons_succ]
    have ih := getElem_cons_set_perm x ys j (Nat.lt_of_succ_lt_succ hj)
    exact ((List.Perm.swap y (ys.getD j 0) (ys.set j x)).trans (List.Perm.cons y ih)).trans
      (List.Perm.swap x y ys)

theorem swapAt_perm_of_lt :
    ∀ (l : List Int) (i j : Nat), i < j → j < l.length → (swapAt l i j).Perm l
  | [], _, j, _, hj => absurd hj (Nat.not_lt_zero j)
  | x :: xs, 0, 0, hij, _ => absurd hij (Nat.lt_irrefl 0)
  | x :: xs, 0, j + 1, _, hj => by
    unfold swapAt
    simp only [List.getD_cons_zero, List.getD_cons_succ, List.set_cons_zero,
      List.set_cons_succ]
    exact getElem_cons_set_perm x xs j (Nat.lt_of_succ_lt_succ hj)
  | x :: xs, i + 1, 0, hij, _ => absurd hij (Nat.not_lt_zero _)
  | x :: xs, i + 1, j + 1, hij, hj => by
    have ih := swapAt_perm_of_lt xs i j (Nat.lt_of_succ_lt_succ hij) (Nat.lt_of_succ_lt_succ hj)
    unfold swapAt at ih ⊢
    simp only [List.getD_cons_succ, List.set_cons_succ]
    exact List.Perm.cons x ih

theorem swapAt_perm (l : List Int) (i j : Nat) (hi : i < l.length) (hj : j < l.length) :
    (swapAt l i j).Perm l := by
  rcases Nat.lt_trichotomy i j with h | h | h
  · exact swapAt_perm_of_lt l i j h hj
  · subst h
    unfold swapAt
    have h1 : (l.set i (l.getD i 0)).set i (l.getD i 0) = l := by
      apply List.ext_getElem?
      intro k
      simp only [List.getElem?_set, List.length_set, List.getD_eq_getElem?_getD]
      by_cases hk : i = k
      · subst hk
        simp [hi]
      · simp [hk]
    rw [h1]
  · have h1 : swapAt l i j = swapAt l j i := by
      unfold swapAt
      exact List.set_comm _ _ l (Nat.ne_of_gt h)
    rw [h1]
    exact swapAt_perm_of_lt l j i h hi

theorem Less_eq_some (h : IntSlice) (i j : Nat) (hi : i < h.length) (hj : j < h.length) :
    IntSlice.Less h i j = some (decide (valueAt h i < valueAt h j)) := by
  unfold IntSlice.Less valueAt
  simp [List.getElem?_eq_getElem hi, List.getElem?_eq_getElem hj]

theorem Swap_eq_some (h : IntSlice) (i j : Nat) (hi : i < h.length) (hj : j < h.length) :
    IntSlice.Swap h i j = some (swapAt h i j) := by
  unfold IntSlice.Swap swapAt
  simp [List.getElem?_eq_getElem hi, List.getElem?_eq_getElem hj]

/-! ## Positions in the tree -/

theorem Below.le {p c : Nat} (h : Below p c) : p ≤ c := by
  induction h with
  | self => exact Nat.le_refl p
  | child hc _ ih => omega

theorem Below.parent {p c : Nat} (h : Below p c) (hne : c ≠ p) :
    0 < c ∧ Below p ((c - 1) / 2) := by
  cases h with
  | self => exact absurd rfl hne
  | child hc hb => exact ⟨hc, hb⟩

theorem Below.left {p c : Nat} (h : Below p c) : Below p (c * 2 + 1) := by
  refine Below.child (by omega) ?_
  have : (c * 2 + 1 - 1) / 2 = c := by omega
  rw [this]
  exact h

theorem Below.right {p c : Nat} (h : Below p c) : Below p (c * 2 + 1 + 1) := by
  refine Below.child (by omega) ?_
  have : (c * 2 + 1 + 1 - 1) / 2 = c := by omega
  rw [this]
  exact h

theorem below_zero (c : Nat) : Below 0 c := by
  induction c using Nat.strong_induction_on with
  | _ c ih =>
    by_cases hc : c = 0
    · subst hc
      exact Below.self
    · exact Below.child (by omega) (ih ((c - 1) / 2) (by omega))

theorem shiftRight_one (n : Nat) : n >>> 1 = n / 2 := by
  rw [Nat.shiftRight_eq_div_pow]

/-! ## One iteration of each loop keeps its invariant -/

theorem heapFrom_of_exceptAt_top {p n : Nat} {g : Nat → Int} (h : ExceptAt p p n g) :
    HeapFrom p n g := by
  intro j hj hpos hp
  exact h.1 j hj hpos hp (by omega)

theorem heapFrom_of_exceptAt_le {p pos n : Nat} {g : Nat → Int} (h : ExceptAt p pos n g)
    (hle : g ((pos - 1) / 2) ≤ g pos) : HeapFrom p n g := by
  intro j hj hpos hp
  by_cases hjp : j = pos
  · subst hjp
    exact hle
  · exact h.1 j hj hpos hp hjp

theorem exceptAt_swap {p pos n : Nat} {g : Nat → Int} (hpos : 0 < pos)
    (hb : Below p ((pos - 1) / 2)) (h : ExceptAt p pos n g)
    (hlt : g pos < g ((pos - 1) / 2)) :
    ExceptAt p ((pos - 1) / 2) n (swapValues g pos ((pos - 1) / 2)) := by
  have hple := hb.le
  constructor
  · intro j hj hj0 hpj hne
    unfold swapValues
    by_cases hjpos : j = pos
    · subst hjpos
      simp only [if_pos rfl, if_neg hne]
      exact Int.le_of_lt hlt
    · rw [if_neg hne, if_neg hjpos]
      by_cases hq1 : (j - 1) / 2 = (pos - 1) / 2
      · rw [if_pos hq1]
        have := h.1 j hj hj0 hpj hjpos
        rw [hq1] at this
        omega
      · rw [if_neg hq1]
        by_cases hq2 : (j - 1) / 2 = pos
        · rw [if_pos hq2]
          exact h.2 j hj hj0 hq2 (by omega)
        · rw [if_neg hq2]
          exact h.1 j hj hj0 hpj hjpos
  · intro c hc hc0 hcp hpp
    have hgb : Below p (((pos - 1) / 2 - 1) / 2) := (hb.parent (by omega)).2
    have hgp : g (((pos - 1) / 2 - 1) / 2) ≤ g ((pos - 1) / 2) :=
      h.1 ((pos - 1) / 2) (by omega) (by omega) hgb.le (by omega)
    unfold swapValues
    rw [if_neg (by omega : ¬ ((pos - 1) / 2 - 1) / 2 = (pos - 1) / 2),
      if_neg (by omega : ¬ ((pos - 1) / 2 - 1) / 2 = pos)]
    by_cases hcpos : c = pos
    · subst hcpos
      rw [if_neg (by omega : ¬ c = (c - 1) / 2), if_pos rfl]
      exact hgp
    · rw [if_neg (by omega : ¬ c = (pos - 1) / 2), if_neg hcpos]
      have := h.1 c hc hc0 (by omega) hcpos
      rw [hcp] at this
      omega

theorem bubbleAt_of_heapFrom {p n : Nat} {g : Nat → Int} (h : HeapFrom (p + 1) n g) :
    BubbleAt p p n g := by
  constructor
  · intro j hj hj0 hpj hq _
    exact h j hj hj0 (by omega)
  · intro c _ _ _ hpp
    exact absurd hpp (Nat.lt_irrefl p)

theorem exceptAt_of_bubbleAt_leaf {p pos n : Nat} {g : Nat → Int} (h : BubbleAt p pos n g)
    (hleaf : ¬ pos * 2 + 1 < n) : ExceptAt p pos n g := by
  constructor
  · intro j hj hj0 hpj hne
    exact h.1 j hj hj0 hpj (by omega) hne
  · intro c hc hc0 hcp _
    omega

theorem bubbleAt_swap {p pos c n : Nat} {g : Nat → Int} (hb : Below p pos)
    (hc : c = pos * 2 + 1 ∨ c = pos * 2 + 1 + 1) (hcn : c < n)
    (hmin : ∀ d, d < n → 0 < d → (d - 1) / 2 = pos → g c ≤ g d)
    (h : BubbleAt p pos n g) :
    BubbleAt p c n (swapValues g pos c) := by
  have hple := hb.le
  have hcpar : (c - 1) / 2 = pos := by omega
  constructor
  · intro j hj hj0 hpj hq hjc
    unfold swapValues
    rw [if_neg hq, if_neg hjc]
    by_cases hjpos : j = pos
    · subst hjpos
      rw [if_neg (by omega : ¬ (j - 1) / 2 = j), if_pos rfl]
      exact h.2 c hcn (by omega) hcpar (by omega)
    · rw [if_neg hjpos]
      by_cases hq2 : (j - 1) / 2 = pos
      · rw [if_pos hq2]
        exact hmin j hj hj0 hq2
      · rw [if_neg hq2]
        exact h.1 j hj hj0 hpj hq2 hjpos
  · intro d hd hd0 hdc _
    unfold swapValues
    rw [hcpar, if_neg (by omega : ¬ pos = c), if_pos rfl,
      if_neg (by omega : ¬ d = c), if_neg (by omega : ¬ d = pos)]
    have := h.1 d hd hd0 (by omega) (by omega) (by omega)
    rw [hdc] at this
    exact this

/-! ## The loops -/

theorem siftdownLoop_spec (p : Nat) :
    ∀ (fuel : Nat) (h : IntSlice) (pos : Nat), pos ≤ fuel → pos < h.length → Below p pos →
      ExceptAt p pos h.length (valueAt h) →
      ∃ h1, siftdownLoop fuel h p pos = some h1 ∧ h1.Perm h ∧
        HeapFrom p h1.length (valueAt h1) := by
  intro fuel
  induction fuel with
  | zero =>
    intro h pos hfuel _ hb hex
    have hp := hb.le
    have hpos : pos = p := by omega
    subst hpos
    exact ⟨h, rfl, List.Perm.refl h, heapFrom_of_exceptAt_top hex⟩
  | succ fuel ih =>
    intro h pos hfuel hlen hb hex
    have hp := hb.le
    by_cases hgt : pos > p
    · obtain ⟨hpos, hbp⟩ := hb.parent (by omega)
      have hparlt : (pos - 1) / 2 < h.length := by omega
      simp only [siftdownLoop, if_pos hgt, shiftRight_one,
        Less_eq_some h pos ((pos - 1) / 2) hlen hparlt,
        Swap_eq_some h pos ((pos - 1) / 2) hlen hparlt]
      by_cases hlt : valueAt h pos < valueAt h ((pos - 1) / 2)
      · simp only [hlt, decide_True, Bool.not_true, Bool.false_eq_true, if_false]
        have hex1 : ExceptAt p ((pos - 1) / 2) (swapAt h pos ((pos - 1) / 2)).length
            (valueAt (swapAt h pos ((pos - 1) / 2))) := by
          rw [length_swapAt, valueAt_swapAt h pos ((pos - 1) / 2) hlen hparlt]
          exact exceptAt_swap hpos hbp hex hlt
        obtain ⟨h1, he, hperm, hheap⟩ := ih (swapAt h pos ((pos - 1) / 2)) ((pos - 1) / 2)
          (by omega) (by rw [length_swapAt]; exact hparlt) hbp hex1
        exact ⟨h1, he, hperm.trans (swapAt_perm h pos ((pos - 1) / 2) hlen hparlt), hheap⟩
      · simp only [hlt, decide_False, Bool.not_false, if_true]
        exact ⟨h, rfl, List.Perm.refl h, heapFrom_of_exceptAt_le hex (by omega)⟩
    · have hpos : pos = p := by omega
      subst hpos
      simp only [siftdownLoop, if_neg hgt]
      exact ⟨h, rfl, List.Perm.refl h, heapFrom_of_exceptAt_top hex⟩

theorem siftdown_spec (p : Nat) (h : IntSlice) (pos : Nat) (hlen : pos < h.length)
    (hb : Below p pos) (hex : ExceptAt p pos h.length (valueAt h)) :
    ∃ h1, siftdown h p pos = some h1 ∧ h1.Perm h ∧ HeapFrom p h1.length (valueAt h1) :=
  siftdownLoop_spec p pos h pos (Nat.le_refl pos) hlen hb hex

theorem siftupLoop_spec (p : Nat) :
    ∀ (fuel : Nat) (h : IntSlice) (pos : Nat), h.length ≤ fuel + pos → pos < h.length →
      Below p pos → BubbleAt p pos h.length (valueAt h) →
      ∃ h1 pos1, siftupLoop fuel h pos = some (h1, pos1) ∧ h1.Perm h ∧ pos1 < h1.length ∧
        Below p pos1 ∧ ExceptAt p pos1 h1.length (valueAt h1) := by
  intro fuel
  induction fuel with
  | zero =>
    intro h pos hfuel hlen _ _
    omega
  | succ fuel ih =>
    intro h pos hfuel hlen hb hbub
    by_cases hchild : pos * 2 + 1 < h.length
    · have hstep : ∀ c, (c = pos * 2 + 1 ∨ c = pos * 2 + 1 + 1) → c < h.length →
          (∀ d, d < h.length → 0 < d → (d - 1) / 2 = pos → valueAt h c ≤ valueAt h d) →
          ∃ h1 pos1, siftupLoop fuel (swapAt h pos c) c = some (h1, pos1) ∧ h1.Perm h ∧
            pos1 < h1.length ∧ Below p pos1 ∧ ExceptAt p pos1 h1.length (valueAt h1) := by
        intro c hc hcn hmin
        have hbc : Below p c := by
          rcases hc with rfl | rfl
          · exact hb.left
          · exact hb.right
        have hbub1 : BubbleAt p c (swapAt h pos c).length (valueAt (swapAt h pos c)) := by
          rw [length_swapAt, valueAt_swapAt h pos c hlen hcn]
          exact bubbleAt_swap hb hc hcn hmin hbub
        obtain ⟨h1, pos1, he, hperm, hlt1, hb1, hex1⟩ := ih (swapAt h pos c) c
          (by rw [length_swapAt]; omega) (by rw [length_swapAt]; exact hcn) hbc hbub1
        exact ⟨h1, pos1, he, hperm.trans (swapAt_perm h pos c hlen hcn), hlt1, hb1, hex1⟩
      by_cases hright : pos * 2 + 1 + 1 < h.length
      · by_cases hlt : valueAt h (pos * 2 + 1 + 1) < valueAt h (pos * 2 + 1)
        · simp only [siftupLoop, if_pos hchild, if_pos hright,
            Less_eq_some h (pos * 2 + 1 + 1) (pos * 2 + 1) hright hchild, hlt, decide_True,
            if_true, Swap_eq_some h pos (pos * 2 + 1 + 1) hlen hright]
          apply hstep (pos * 2 + 1 + 1) (Or.inr rfl) hright
          intro d hd hd0 hdp
          have hd2 : d = pos * 2 + 1 ∨ d = pos * 2 + 1 + 1 := by omega
          rcases hd2 with rfl | rfl
          · exact Int.le_of_lt hlt
          · exact Int.le_refl _
        · simp only [siftupLoop, if_pos hchild, if_pos hright,
            Less_eq_some h (pos * 2 + 1 + 1) (pos * 2 + 1) hright hchild, hlt, decide_False,
            Bool.false_eq_true, if_false, Swap_eq_some h pos (pos * 2 + 1) hlen hchild]
          apply hstep (pos * 2 + 1) (Or.inl rfl) hchild
          intro d hd hd0 hdp
          have hd2 : d = pos * 2 + 1 ∨ d = pos * 2 + 1 + 1 := by omega
          rcases hd2 with rfl | rfl
          · exact Int.le_refl _
          · omega
      · simp only [siftupLoop, if_pos hchild, if_neg hright, Bool.false_eq_true, if_false,
          Swap_eq_some h pos (pos * 2 + 1) hlen hchild]
        apply hstep (pos * 2 + 1) (Or.inl rfl) hchild
        intro d hd hd0 hdp
        have hd2 : d = pos * 2 + 1 := by omega
        subst hd2
        exact Int.le_refl _
    · simp only [siftupLoop, if_neg hchild]
      exact ⟨h, pos, rfl, List.Perm.refl h, hlen, hb, exceptAt_of_bubbleAt_leaf hbub hchild⟩

theorem siftup_spec (p : Nat) (h : IntSlice) (hlen : p < h.length)
    (hh : HeapFrom (p + 1) h.length (valueAt h)) :
    ∃ h1, siftup h p = some h1 ∧ h1.Perm h ∧ HeapFrom p h1.length (valueAt h1) := by
  obtain ⟨h1, pos1, he, hperm, hlt1, hb1, hex1⟩ :=
    siftupLoop_spec p h.length h p (by omega) hlen Below.self (bubbleAt_of_heapFrom hh)
  obtain ⟨h2, he2, hperm2, hheap⟩ := siftdown_spec p h1 pos1 hlt1 hb1 hex1
  refine ⟨h2, ?_, hperm2.trans hperm, hheap⟩
  unfold siftup
  rw [he]
  exact he2

/-! ## The counters of the loops never cut a loop short -/

theorem siftdownLoop_fuel (s : Nat) :
    ∀ (fuel1 fuel2 : Nat) (heap : IntSlice) (pos : Nat), pos ≤ fuel1 → pos ≤ fuel2 →
      siftdownLoop fuel1 heap s pos = siftdownLoop fuel2 heap s pos := by
  intro fuel1
  induction fuel1 with
  | zero =>
    intro fuel2 heap pos h1 _
    have hpos : pos = 0 := by omega
    subst hpos
    cases fuel2 with
    | zero => rfl
    | succ f => simp [siftdownLoop]
  | succ f ih =>
    intro fuel2 heap pos h1 h2
    cases fuel2 with
    | zero =>
      have hpos : pos = 0 := by omega
      subst hpos
      simp [siftdownLoop]
    | succ f2 =>
      simp only [siftdownLoop]
      by_cases hgt : pos > s
      · simp only [if_pos hgt]
        cases IntSlice.Less heap pos ((pos - 1) >>> 1) with
        | none => rfl
        | some lt =>
          cases lt with
          | false => rfl
          | true =>
            simp only [Bool.not_true, Bool.false_eq_true, if_false]
            cases IntSlice.Swap heap pos ((pos - 1) >>> 1) with
            | none => rfl
            | some heap1 =>
              simp only
              rw [shiftRight_one]
              exact ih f2 heap1 ((pos - 1) / 2) (by omega) (by omega)
      · simp only [if_neg hgt]

/-- The loop of `siftdown` as the code has it: one iteration, then the loop again. -/
theorem siftdown_loop_eq (heap : IntSlice) (startPos pos : Nat) :
    siftdown heap startPos pos =
      if pos > startPos then
        match IntSlice.Less heap pos ((pos - 1) >>> 1) with
        | none => none
        | some lt =>
          if !lt then some heap
          else
            match IntSlice.Swap heap pos ((pos - 1) >>> 1) with
            | none => none
            | some heap1 => siftdown heap1 startPos ((pos - 1) >>> 1)
      else some heap := by
  unfold siftdown
  cases pos with
  | zero => simp [siftdownLoop]
  | succ k =>
    simp only [siftdownLoop]
    by_cases hgt : k + 1 > startPos
    · simp only [if_pos hgt]
      cases IntSlice.Less heap (k + 1) ((k + 1 - 1) >>> 1) with
      | none => rfl
      | some lt =>
        cases lt with
        | false => rfl
        | true =>
          simp only [Bool.not_true, Bool.false_eq_true, if_false]
          cases IntSlice.Swap heap (k + 1) ((k + 1 - 1) >>> 1) with
          | none => rfl
          | some heap1 =>
            simp only
            exact siftdownLoop_fuel startPos k _ heap1 _
              (by rw [shiftRight_one]; omega) (Nat.le_refl _)
    · simp only [if_neg hgt]

theorem length_Swap {heap heap1 : IntSlice} {i j : Nat}
    (h : IntSlice.Swap heap i j = some heap1) : heap1.length = heap.length := by
  unfold IntSlice.Swap at h
  split at h
  · simp only [Option.some.injEq] at h
    rw [← h]
    simp
  · exact absurd h (by simp)

theorem siftupLoop_fuel :
    ∀ (fuel1 fuel2 : Nat) (heap : IntSlice) (pos : Nat), heap.length ≤ fuel1 + pos →
      heap.length ≤ fuel2 + pos → siftupLoop fuel1 heap pos = siftupLoop fuel2 heap pos := by
  intro fuel1
  induction fuel1 with
  | zero =>
    intro fuel2 heap pos h1 _
    cases fuel2 with
    | zero => rfl
    | succ f =>
      simp only [siftupLoop]
      rw [if_neg (by omega)]
  | succ f ih =>
    intro fuel2 heap pos h1 h2
    cases fuel2 with
    | zero =>
      simp only [siftupLoop]
      rw [if_neg (by omega)]
    | succ f2 =>
      simp only [siftupLoop]
      by_cases hc : pos * 2 + 1 < heap.length
      · simp only [if_pos hc]
        cases (if pos * 2 + 1 + 1 < heap.length then
            IntSlice.Less heap (pos * 2 + 1 + 1) (pos * 2 + 1) else some false) with
        | none => rfl
        | some right =>
          simp only
          cases hsw : IntSlice.Swap heap pos (if right = true then pos * 2 + 1 + 1
              else pos * 2 + 1) with
          | none => rfl
          | some heap1 =>
            simp only
            have hl := length_Swap hsw
            apply ih
            · rw [hl]
              split <;> omega
            · rw [hl]
              split <;> omega
      · simp only [if_neg hc]

/-- The first loop of `siftup` as the code has it: one iteration, then the loop again; `fuel`
is any counter that covers the rest of the slice. -/
theorem siftupLoop_loop_eq (fuel : Nat) (heap : IntSlice) (pos : Nat)
    (hfuel : heap.length ≤ fuel + pos) :
    siftupLoop fuel heap pos =
      if pos * 2 + 1 < heap.length then
        match (if pos * 2 + 1 + 1 < heap.length then
                 IntSlice.Less heap (pos * 2 + 1 + 1) (pos * 2 + 1)
               else some false) with
        | none => none
        | some right =>
          match IntSlice.Swap heap pos (if right then pos * 2 + 1 + 1 else pos * 2 + 1) with
          | none => none
          | some heap1 =>
            siftupLoop heap1.length heap1 (if right then pos * 2 + 1 + 1 else pos * 2 + 1)
      else some (heap, pos) := by
  rw [siftupLoop_fuel fuel (fuel + 1) heap pos hfuel (by omega)]
  simp only [siftupLoop]
  by_cases hc : pos * 2 + 1 < heap.length
  · simp only [if_pos hc]
    cases (if pos * 2 + 1 + 1 < heap.length then
        IntSlice.Less heap (pos * 2 + 1 + 1) (pos * 2 + 1) else some false) with
    | none => rfl
    | some right =>
      simp only
      cases hsw : IntSlice.Swap heap pos (if right = true then pos * 2 + 1 + 1
          else pos * 2 + 1) with
      | none => rfl
      | some heap1 =>
        simp only
        have hl := length_Swap hsw
        apply siftupLoop_fuel
        · rw [hl]
          split <;> omega
        · split <;> omega
  · simp only [if_neg hc]

/-! ## The heap operations -/

theorem isMinHeap_iff (h : IntSlice) : IsMinHeap h ↔ HeapFrom 0 h.length (valueAt h) := by
  unfold IsMinHeap HeapFrom valueAt
  constructor
  · intro hh j hj hj0 _
    exact hh j hj hj0
  · intro hh j hj hj0
    exact hh j hj hj0 (Nat.zero_le _)

theorem root_le_of_heapFrom {n : Nat} {g : Nat → Int} (h : HeapFrom 0 n g) :
    ∀ i, i < n → g 0 ≤ g i := by
  intro i
  induction i using Nat.strong_induction_on with
  | _ i ih =>
    intro hi
    by_cases h0 : i = 0
    · subst h0
      exact Int.le_refl _
    · have h1 := ih ((i - 1) / 2) (by omega) (by omega)
      have h2 := h i hi (by omega) (Nat.zero_le _)
      omega

theorem root_le_of_isMinHeap {h : IntSlice} (hh : IsMinHeap h) :
    ∀ x ∈ h, h.getD 0 0 ≤ x := by
  intro x hx
  obtain ⟨i, hi, rfl⟩ := List.getElem_of_mem hx
  have := root_le_of_heapFrom ((isMinHeap_iff h).mp hh) i hi
  simpa [valueAt, List.getD_eq_getElem?_getD, List.getElem?_eq_getElem hi] using this

theorem valueAt_append_left (l : IntSlice) (a : Int) (k : Nat) (hk : k < l.length) :
    valueAt (l ++ [a]) k = valueAt l k := by
  unfold valueAt
  simp [List.getD_eq_getElem?_getD, List.getElem?_append_left hk]

theorem Heappush_spec (heap : IntSlice) (item : Int) (hh : IsMinHeap heap) :
    ∃ h1, Heappush heap item = some h1 ∧ h1.Perm (item :: heap) ∧ IsMinHeap h1 := by
  have hlen : (heap ++ [item]).length - 1 = heap.length := by simp
  have hex : ExceptAt 0 heap.length (heap ++ [item]).length (valueAt (heap ++ [item])) := by
    constructor
    · intro j hj hj0 _ hne
      have hj1 : j < heap.length := by
        simp only [List.length_append, List.length_singleton] at hj
        omega
      rw [valueAt_append_left heap item j hj1,
        valueAt_append_left heap item ((j - 1) / 2) (by omega)]
      exact hh j hj1 hj0
    · intro c hc hc0 hcp _
      simp only [List.length_append, List.length_singleton] at hc
      omega
  obtain ⟨h1, he, hperm, hheap⟩ := siftdown_spec 0 (heap ++ [item]) heap.length
    (by simp) (below_zero _) hex
  refine ⟨h1, ?_, hperm.trans (List.perm_append_singleton item heap), (isMinHeap_iff h1).mpr hheap⟩
  unfold Heappush
  rw [hlen]
  exact he

theorem Heappop_concat (l : IntSlice) (a : Int) (hh : IsMinHeap (l ++ [a])) :
    ∃ rest m, Heappop (l ++ [a]) = some (rest, m) ∧ m = (l ++ [a]).getD 0 0 ∧
      (m :: rest).Perm (l ++ [a]) ∧ IsMinHeap rest := by
  have hlen : (l ++ [a]).length - 1 = l.length := by simp
  have hne : ¬ (l ++ [a]).length = 0 := by simp
  unfold Heappop
  rw [if_neg hne, hlen, List.getElem?_concat_length, List.take_left]
  cases l with
  | nil =>
    refine ⟨[], a, by simp, by simp, List.Perm.refl _, ?_⟩
    intro i hi
    exact absurd hi (Nat.not_lt_zero i)
  | cons t tl =>
    have hfrom : HeapFrom (0 + 1) (a :: tl).length (valueAt (a :: tl)) := by
      intro j hj hj0 hp
      have hj1 : j < (t :: tl).length := hj
      have h1 := hh j (by simp at hj1 ⊢; omega) hj0
      obtain ⟨j1, rfl⟩ : ∃ j1, j = j1 + 1 := ⟨j - 1, by omega⟩
      obtain ⟨q, hq⟩ : ∃ q, (j1 + 1 - 1) / 2 = q + 1 := ⟨(j1 + 1 - 1) / 2 - 1, by omega⟩
      rw [hq] at h1 ⊢
      have hj2 : j1 < tl.length := by
        simp only [List.length_cons] at hj
        omega
      have hq2 : q < tl.length := by omega
      simpa [valueAt, List.getElem?_append_left hj2, List.getElem?_append_left hq2] using h1
    obtain ⟨h1, he, hperm, hheap⟩ := siftup_spec 0 (a :: tl) (by simp) hfrom
    refine ⟨h1, t, ?_, by simp, ?_, (isMinHeap_iff h1).mpr hheap⟩
    · simp only [List.length_cons, Nat.zero_lt_succ, if_true, gt_iff_lt, Heappoppush,
        List.getElem?_cons_zero, List.set_cons_zero]
      rw [he]
    · exact ((List.Perm.cons t hperm).trans (List.Perm.cons t
        (List.perm_append_singleton a tl).symm))

theorem heapifyLoop_spec :
    ∀ (i : Nat) (h : IntSlice), i ≤ h.length → HeapFrom i h.length (valueAt h) →
      ∃ h1, heapifyLoop i h = some h1 ∧ h1.Perm h ∧ IsMinHeap h1 := by
  intro i
  induction i with
  | zero =>
    intro h _ hh
    exact ⟨h, rfl, List.Perm.refl h, (isMinHeap_iff h).mpr hh⟩
  | succ i ih =>
    intro h hi hh
    obtain ⟨h1, he, hperm, hheap⟩ := siftup_spec i h (by omega) hh
    obtain ⟨h2, he2, hperm2, hheap2⟩ := ih h1 (by rw [hperm.length_eq]; omega) hheap
    refine ⟨h2, ?_, hperm2.trans hperm, hheap2⟩
    simp only [heapifyLoop, he]
    exact he2

theorem Heapify_spec (heap : IntSlice) :
    ∃ h1, Heapify heap = some h1 ∧ h1.Perm heap ∧ IsMinHeap h1 := by
  apply heapifyLoop_spec (heap.length / 2) heap (by omega)
  intro j hj hj0 hp
  omega

theorem pushAll_spec :
    ∀ (items : List Int) (heap : IntSlice), IsMinHeap heap →
      ∃ h1, pushAll heap items = some h1 ∧ h1.Perm (heap ++ items) ∧ IsMinHeap h1 := by
  intro items
  induction items with
  | nil =>
    intro heap hh
    exact ⟨heap, rfl, by simp, hh⟩
  | cons item rest ih =>
    intro heap hh
    obtain ⟨h1, he, hperm, hheap⟩ := Heappush_spec heap item hh
    obtain ⟨h2, he2, hperm2, hheap2⟩ := ih h1 hheap
    refine ⟨h2, ?_, ?_, hheap2⟩
    · simp only [pushAll, he]
      exact he2
    · refine hperm2.trans ((hperm.append_right rest).trans ?_)
      simpa using (@List.perm_middle _ item heap rest).symm

/-! ## Claims about the heap -/

/-- C14: on a non-empty slice with the min-heap property `Heappop` makes no out-of-range access
and returns a minimum element of the slice together with a slice one shorter that has the
min-heap property again and holds the elements of the input with one occurrence of that minimum
removed. -/
theorem C14_Heappop_returns_minimum (heap : IntSlice) (hne : heap ≠ []) (hh : IsMinHeap heap) :
    ∃ rest m, Heappop heap = some (rest, m) ∧ m ∈ heap ∧ (∀ x ∈ heap, m ≤ x) ∧
      rest.length + 1 = heap.length ∧ IsMinHeap rest ∧ (m :: rest).Perm heap := by
  rcases List.eq_nil_or_concat heap with hnil | ⟨l, a, hla⟩
  · exact absurd hnil hne
  · rw [List.concat_eq_append] at hla
    subst hla
    obtain ⟨rest, m, he, hm, hperm, hheap⟩ := Heappop_concat l a hh
    refine ⟨rest, m, he, hperm.subset (List.mem_cons_self m rest), ?_, ?_, hheap, hperm⟩
    · rw [hm]
      exact root_le_of_isMinHeap hh
    · have := hperm.length_eq
      simpa using this

/-- C14 at the heap that the eleven pushes of `TestHeap` build. -/
theorem C14_Heappop_returns_minimum_witness :
    (([0, 1, 5, 4, 2, 9, 6, 10, 7, 8, 3] : IntSlice) ≠ [] ∧
      IsMinHeap [0, 1, 5, 4, 2, 9, 6, 10, 7, 8, 3]) ∧
    (∃ rest m, Heappop [0, 1, 5, 4, 2, 9, 6, 10, 7, 8, 3] = some (rest, m) ∧
      m ∈ ([0, 1, 5, 4, 2, 9, 6, 10, 7, 8, 3] : IntSlice) ∧
      (∀ x ∈ ([0, 1, 5, 4, 2, 9, 6, 10, 7, 8, 3] : IntSlice), m ≤ x) ∧
      rest.length + 1 = ([0, 1, 5, 4, 2, 9, 6, 10, 7, 8, 3] : IntSlice).length ∧
      IsMinHeap rest ∧ (m :: rest).Perm [0, 1, 5, 4, 2, 9, 6, 10, 7, 8, 3]) ∧
    Heappop [0, 1, 5, 4, 2, 9, 6, 10, 7, 8, 3] = some ([1, 2, 5, 4, 3, 9, 6, 10, 7, 8], 0) :=
  ⟨⟨by decide, by decide⟩,
    C14_Heappop_returns_minimum [0, 1, 5, 4, 2, 9, 6, 10, 7, 8, 3] (by decide) (by decide),
    by decide⟩

/-- C15 (the code at its failing input): on the heap of `TestHeap` and the item 11,
`Heappushpop` leaves the slice that `Heappush` followed by `Heappop` leaves but returns the item
11 where the latter returns the smallest value 1; and whatever the input, the value it returns
is `item`. -/
theorem C15_Heappushpop_returns_item :
    Heappushpop [1, 2, 5, 4, 3, 9, 6, 10, 7, 8] 11 =
      some ([2, 3, 5, 4, 8, 9, 6, 10, 7, 11], 11) ∧
    pushThenPop [1, 2, 5, 4, 3, 9, 6, 10, 7, 8] 11 =
      some ([2, 3, 5, 4, 8, 9, 6, 10, 7, 11], 1) ∧
    IsMinHeap [1, 2, 5, 4, 3, 9, 6, 10, 7, 8] ∧
    (∀ (heap : IntSlice) (item : Int) (r : IntSlice × Int),
      Heappushpop heap item = some r → r.2 = item) := by
  refine ⟨by decide, by decide, by decide, ?_⟩
  intro heap item r h
  unfold Heappushpop at h
  split at h
  · exact absurd h (by simp)
  · split at h
    · exact absurd h (by simp)
    · simp only [Option.some.injEq] at h
      rw [← h]
  · simp only [Option.some.injEq] at h
    rw [← h]

/-- C19: on a slice with the min-heap property `Heappush` returns a slice one longer that has
the min-heap property and holds the elements of the input and the item; hence every slice built
from the empty slice by repeated `Heappush` holds the pushed items, has the min-heap property
and has a minimum at index 0. -/
theorem C19_Heappush_keeps_heap (heap : IntSlice) (item : Int) (hh : IsMinHeap heap) :
    (∃ h1, Heappush heap item = some h1 ∧ h1.length = heap.length + 1 ∧ IsMinHeap h1 ∧
      h1.Perm (item :: heap)) ∧
    (∀ items : List Int, ∃ h1, pushAll [] items = some h1 ∧ h1.Perm items ∧ IsMinHeap h1 ∧
      ∀ x ∈ h1, h1.getD 0 0 ≤ x) := by
  constructor
  · obtain ⟨h1, he, hperm, hheap⟩ := Heappush_spec heap item hh
    exact ⟨h1, he, by simpa using hperm.length_eq, hheap, hperm⟩
  · intro items
    obtain ⟨h1, he, hperm, hheap⟩ := pushAll_spec items []
      (fun i hi => absurd hi (Nat.not_lt_zero i))
    exact ⟨h1, he, by simpa using hperm, hheap, root_le_of_isMinHeap hheap⟩

/-- C19 at the last push of `TestHeap`: the item 0 onto the heap of the ten earlier pushes. -/
theorem C19_Heappush_keeps_heap_witness :
    IsMinHeap [1, 2, 5, 4, 3, 9, 6, 10, 7, 8] ∧
    ((∃ h1, Heappush [1, 2, 5, 4, 3, 9, 6, 10, 7, 8] 0 = some h1 ∧
        h1.length = ([1, 2, 5, 4, 3, 9, 6, 10, 7, 8] : IntSlice).length + 1 ∧ IsMinHeap h1 ∧
        h1.Perm (0 :: [1, 2, 5, 4, 3, 9, 6, 10, 7, 8])) ∧
      (∀ items : List Int, ∃ h1, pushAll [] items = some h1 ∧ h1.Perm items ∧ IsMinHeap h1 ∧
        ∀ x ∈ h1, h1.getD 0 0 ≤ x)) ∧
    pushAll [] [10, 9, 8, 7, 6, 5, 4, 3, 2, 1, 0] = some [0, 1, 5, 4, 2, 9, 6, 10, 7, 8, 3] :=
  ⟨by decide, C19_Heappush_keeps_heap [1, 2, 5, 4, 3, 9, 6, 10, 7, 8] 0 (by decide), by decide⟩

/-- C20: on every slice, the empty one and those of length 1 included, `Heapify` ends without
an out-of-range access and leaves a permutation of the input that has the min-heap property, so
that a minimum is at index 0; on `[10, 9, 8, 7, 6, 5, 4, 3, 2, 1, 0]` it leaves
`[0, 1, 4, 2, 6, 5, 8, 3, 7, 9, 10]`. -/
theorem C20_Heapify_builds_heap (heap : IntSlice) (a : Int) :
    (∃ h1, Heapify heap = some h1 ∧ h1.Perm heap ∧ IsMinHeap h1 ∧
      ∀ x ∈ h1, h1.getD 0 0 ≤ x) ∧
    Heapify [] = some [] ∧
    Heapify [a] = some [a] ∧
    Heapify [10, 9, 8, 7, 6, 5, 4, 3, 2, 1, 0] = some [0, 1, 4, 2, 6, 5, 8, 3, 7, 9, 10] := by
  refine ⟨?_, rfl, by simp [Heapify, heapifyLoop], by decide⟩
  obtain ⟨h1, he, hperm, hheap⟩ := Heapify_spec heap
  exact ⟨h1, he, hperm, hheap, root_le_of_isMinHeap hheap⟩

end sort
